import Mathlib

/-!
Shallow embedding of `src/lua_mpfr.c` (a Lua binding of the MPFR
arbitrary-precision floating-point library) and proofs about its claims.

Modelling conventions:
* Machine model is LP64 (the usual Linux target of this binding):
  `long` and `lua_Integer` are 64-bit, `unsigned long` is 64-bit.
* MPFR, the external arithmetic engine, is out of scope of the repository
  (the spec treats it as a trusted collaborator).  Each `mpfr_*` primitive
  used by the binding is modelled from its documented semantics: a value is
  a rational number (or NaN / signed infinity / signed zero), and every
  arithmetic primitive computes the exact result and then rounds it to the
  destination's precision in the requested direction.  The exponent range
  is modelled as unbounded (MPFR's default range of ±2^62 is never reached
  by any claim).
* Lua host values are modelled by the `LuaValue` type; native doubles are
  modelled by their exact rational values.
-/

namespace LuaMpfr

/-! ### Machine constants (LP64) -/

def ULONG_MAX : ℤ := 2 ^ 64 - 1

def LONG_MIN : ℤ := -(2 ^ 63)

def LONG_MAX : ℤ := 2 ^ 63 - 1

/-- `MPFR_PREC_MIN` (mpfr.h). -/
def MPFR_PREC_MIN : ℤ := 1

/-- `MPFR_PREC_MAX` (mpfr.h, LP64: `(mpfr_prec_t)(2^63-1 - 256)`). -/
def MPFR_PREC_MAX : ℤ := 2 ^ 63 - 257

/-! ### Rounding modes -/

/-- The five MPFR rounding modes exposed by the binding
(`MPFR_RNDN`, `MPFR_RNDZ`, `MPFR_RNDU`, `MPFR_RNDD`, `MPFR_RNDA`). -/
inductive Rnd
  | N
  | Z
  | U
  | D
  | A
deriving DecidableEq

/-- The integer encoding of rounding modes from `mpfr.h`
(`MPFR_RNDN = 0`, `MPFR_RNDZ = 1`, `MPFR_RNDU = 2`, `MPFR_RNDD = 3`,
`MPFR_RNDA = 4`).  The C code passes `lua_Integer`s to the engine without
validation; an integer outside the enumeration is undefined behaviour of
the engine and is mapped to nearest here (no claim depends on it). -/
def rndOfInt (i : ℤ) : Rnd :=
  if i = 1 then .Z else if i = 2 then .U else if i = 3 then .D
  else if i = 4 then .A else .N

/-! ### Correct rounding of rationals

`iround r m` rounds the rational `m` to an integer in direction `r`;
`round p r q` rounds `q` to a floating-point number with a `p`-bit
significand (and unbounded exponent), the documented semantics of every
MPFR operation with a `mpfr_rnd_t` parameter. -/

/-- Round toward zero (truncation). -/
def itrunc (m : ℚ) : ℤ := if 0 ≤ m then ⌊m⌋ else ⌈m⌉

/-- Round away from zero. -/
def iaway (m : ℚ) : ℤ := if 0 ≤ m then ⌈m⌉ else ⌊m⌋

/-- Round to nearest, ties to even. -/
def inearest (m : ℚ) : ℤ :=
  if Int.fract m < 1 / 2 then ⌊m⌋
  else if 1 / 2 < Int.fract m then ⌊m⌋ + 1
  else if 2 ∣ ⌊m⌋ then ⌊m⌋ else ⌊m⌋ + 1

/-- Integer rounding in each MPFR direction. -/
def iround : Rnd → ℚ → ℤ
  | .N => inearest
  | .Z => itrunc
  | .U => fun m => ⌈m⌉
  | .D => fun m => ⌊m⌋
  | .A => iaway

/-- Correct rounding to a `p`-bit significand: scale `q` so that its
magnitude lies in `[2^(p-1), 2^p)`, round to an integer in direction `r`,
and scale back. -/
def round (p : ℕ) (r : Rnd) (q : ℚ) : ℚ :=
  if q = 0 then 0
  else
    (iround r (q * 2 ^ ((p : ℤ) - 1 - Int.log 2 |q|)) : ℚ) *
      2 ^ (Int.log 2 |q| + 1 - (p : ℤ))

/-- `q` is exactly representable with a `p`-bit significand. -/
def isRep (p : ℕ) (q : ℚ) : Prop :=
  ∃ m e : ℤ, |m| < 2 ^ p ∧ q = (m : ℚ) * 2 ^ e

/-- The rounding directions that commute with negation. -/
def signSym : Rnd → Prop
  | .N => True
  | .Z => True
  | .U => False
  | .D => False
  | .A => True

/-! ### MPFR values and handles

A `mpfr_t` is exactly one of: NaN, a signed infinity, a signed zero, or a
regular (nonzero finite) number; each cell carries its own precision. -/

inductive MpfrVal
  | nan
  | inf (neg : Bool)
  | zero (neg : Bool)
  | reg (q : ℚ)
deriving DecidableEq

/-- A Value Handle: one `mpfr_t` userdata cell. -/
structure Cell where
  prec : ℕ
  val : MpfrVal
deriving DecidableEq

/-- The exact MPFR value of a machine-integer operand, as used by the
`_si`/`_ui` primitive variants (an integer operand is always exact). -/
def exactInt (n : ℤ) : MpfrVal := if n = 0 then .zero false else .reg n

/-- The exact MPFR value of a `double` operand (finite doubles are
rationals; the claims never pass non-finite doubles). -/
def exactD (q : ℚ) : MpfrVal := if q = 0 then .zero false else .reg q

/-- Negation of an MPFR value (exact). -/
def MpfrVal.negv : MpfrVal → MpfrVal
  | .nan => .nan
  | .inf s => .inf (!s)
  | .zero s => .zero (!s)
  | .reg q => .reg (-q)

/-- Round an exact extended value to precision `p`. -/
def roundVal (p : ℕ) (r : Rnd) : MpfrVal → MpfrVal
  | .nan => .nan
  | .inf s => .inf s
  | .zero s => .zero s
  | .reg q => .reg (round p r q)

/-- `mpfr_number_p`. -/
def numberP : MpfrVal → Bool
  | .nan => false
  | .inf _ => false
  | _ => true

/-- `mpfr_zero_p`. -/
def zeroP : MpfrVal → Bool
  | .zero _ => true
  | .reg q => decide (q = 0)
  | _ => false

/-- `mpfr_signbit`. NaN's sign bit is unspecified in MPFR; modelled as
positive (no claim depends on it). -/
def signbitVal : MpfrVal → Bool
  | .nan => false
  | .inf s => s
  | .zero s => s
  | .reg q => decide (q < 0)

/-! ### Engine primitives used by the claims

Each is modelled from its documented MPFR semantics: compute the exact
extended-real result, then round to the destination's precision in the
requested direction.  The sign of an exact zero sum/difference is `+` in
every mode except `MPFR_RNDD`, where it is `-`; two zero summands of equal
sign keep that sign (MPFR manual, "Basic Arithmetic Functions"). -/

/-- Exact addition of MPFR values followed by correct rounding
(`mpfr_add` and its typed variants). -/
def addVal (p : ℕ) (r : Rnd) : MpfrVal → MpfrVal → MpfrVal
  | .nan, _ => .nan
  | _, .nan => .nan
  | .inf s, .inf t => if s = t then .inf s else .nan
  | .inf s, _ => .inf s
  | _, .inf t => .inf t
  | .zero s, .zero t => if s = t then .zero s else .zero (decide (r = .D))
  | .zero _, .reg q => .reg (round p r q)
  | .reg q, .zero _ => .reg (round p r q)
  | .reg x, .reg y =>
      if x + y = 0 then .zero (decide (r = .D))
      else .reg (round p r (x + y))

/-- Exact subtraction: `mpfr_sub` behaves as addition of the negated
second operand, including the signed-zero rules. -/
def subVal (p : ℕ) (r : Rnd) (x y : MpfrVal) : MpfrVal :=
  addVal p r x y.negv

def mpfr_set (z : Cell) (x : MpfrVal) (r : Rnd) : Cell :=
  { z with val := roundVal z.prec r x }

def mpfr_set_si (z : Cell) (n : ℤ) (r : Rnd) : Cell :=
  { z with val := roundVal z.prec r (exactInt n) }

def mpfr_set_d (z : Cell) (d : ℚ) (r : Rnd) : Cell :=
  { z with val := roundVal z.prec r (exactD d) }

def mpfr_add (z : Cell) (x y : MpfrVal) (r : Rnd) : Cell :=
  { z with val := addVal z.prec r x y }

def mpfr_add_si (z : Cell) (x : MpfrVal) (n : ℤ) (r : Rnd) : Cell :=
  { z with val := addVal z.prec r x (exactInt n) }

def mpfr_add_d (z : Cell) (x : MpfrVal) (d : ℚ) (r : Rnd) : Cell :=
  { z with val := addVal z.prec r x (exactD d) }

def mpfr_sub (z : Cell) (x y : MpfrVal) (r : Rnd) : Cell :=
  { z with val := subVal z.prec r x y }

def mpfr_sub_si (z : Cell) (x : MpfrVal) (n : ℤ) (r : Rnd) : Cell :=
  { z with val := subVal z.prec r x (exactInt n) }

def mpfr_sub_d (z : Cell) (x : MpfrVal) (d : ℚ) (r : Rnd) : Cell :=
  { z with val := subVal z.prec r x (exactD d) }

def mpfr_si_sub (z : Cell) (n : ℤ) (y : MpfrVal) (r : Rnd) : Cell :=
  { z with val := subVal z.prec r (exactInt n) y }

def mpfr_d_sub (z : Cell) (d : ℚ) (y : MpfrVal) (r : Rnd) : Cell :=
  { z with val := subVal z.prec r (exactD d) y }

/-- `mpfr_ui_pow_ui`: `i1 ^ i2` correctly rounded (MPFR defines
`0^0 = 1`). -/
def mpfr_ui_pow_ui (z : Cell) (i1 i2 : ℕ) (r : Rnd) : Cell :=
  { z with val :=
      if i1 = 0 ∧ i2 ≠ 0 then .zero false
      else .reg (round z.prec r ((i1 : ℚ) ^ i2)) }

/-- `mpfr_pow_si` (and `mpfr_pow_ui` for nonnegative exponents): `x ^ n`
correctly rounded; MPFR defines `x^0 = 1` for every `x` including NaN,
and powers of infinities and zeros follow the IEEE `pow` conventions. -/
def powSiVal (p : ℕ) (r : Rnd) (x : MpfrVal) (n : ℤ) : MpfrVal :=
  if n = 0 then .reg 1
  else
    match x with
    | .nan => .nan
    | .inf s =>
        if 0 < n then .inf (if n % 2 = 0 then false else s)
        else .zero (if n % 2 = 0 then false else s)
    | .zero s =>
        if 0 < n then .zero (if n % 2 = 0 then false else s)
        else .inf (if n % 2 = 0 then false else s)
    | .reg q =>
        if q = 0 then
          if 0 < n then .zero false else .inf false
        else .reg (round p r (q ^ n))

def mpfr_pow_si (z : Cell) (x : MpfrVal) (n : ℤ) (r : Rnd) : Cell :=
  { z with val := powSiVal z.prec r x n }

def mpfr_pow_ui (z : Cell) (x : MpfrVal) (n : ℕ) (r : Rnd) : Cell :=
  { z with val := powSiVal z.prec r x n }

/-- `mpfr_copysign(z, x, y, r)` documented semantics: the value of `x`
with the sign bit of `y`, rounded to `z`'s precision. -/
def copysignVal (p : ℕ) (r : Rnd) (x y : MpfrVal) : MpfrVal :=
  match x with
  | .nan => .nan
  | .inf _ => .inf (signbitVal y)
  | .zero _ => .zero (signbitVal y)
  | .reg q => .reg (round p r (if signbitVal y then -|q| else |q|))

/-- `mpfr_fac_ui`: `n!` correctly rounded. -/
def mpfr_fac_ui (z : Cell) (n : ℕ) (r : Rnd) : Cell :=
  { z with val := .reg (round z.prec r (n.factorial : ℚ)) }

/-- Correctly rounded square root of a positive rational: scale into
`[4^(p-1), 4^p)`, take the integer square root, and fix up the last digit
by exact comparison of squares. -/
def sqrtPos (p : ℕ) (q : ℚ) (r : Rnd) : ℚ :=
  let Es : ℤ := Int.log 2 q / 2
  let k : ℤ := (p : ℤ) - 1 - Es
  let x : ℚ := q * 4 ^ k
  let u : ℕ := Nat.sqrt ⌊x⌋.toNat
  let t : ℤ :=
    match r with
    | .Z => u
    | .D => u
    | .U => if ((u : ℚ)) ^ 2 = x then u else u + 1
    | .A => if ((u : ℚ)) ^ 2 = x then u else u + 1
    | .N =>
        if 4 * x < ((2 * u + 1 : ℕ) : ℚ) ^ 2 then u
        else if ((2 * u + 1 : ℕ) : ℚ) ^ 2 < 4 * x then u + 1
        else if u % 2 = 0 then u else u + 1
  (t : ℚ) * 2 ^ (-k)

/-- `mpfr_sqrt`: square root; NaN for negative operands, `±0 → ±0`,
`+inf → +inf`. -/
def mpfr_sqrt (z : Cell) (x : MpfrVal) (r : Rnd) : Cell :=
  { z with val :=
      match x with
      | .nan => .nan
      | .inf s => if s then .nan else .inf false
      | .zero s => .zero s
      | .reg q =>
          if q < 0 then .nan
          else if q = 0 then .zero false
          else .reg (sqrtPos z.prec q r) }

/-- `mpfr_sqrt_ui`. -/
def mpfr_sqrt_ui (z : Cell) (n : ℕ) (r : Rnd) : Cell :=
  { z with val :=
      if n = 0 then .zero false else .reg (sqrtPos z.prec (n : ℚ) r) }

/-! ### Lua host values and auxiliary-library helpers -/

/-- A Lua value as seen by the binding.  Lua numbers have two subtypes:
integers (`VInt`) and floats (`VNum`, modelled by their exact rational
value; the claims never pass non-finite doubles).  `VFr` is an `mpfr_t`
userdata; `VNil` stands for nil and for every other non-numeric,
non-string, non-userdata value. -/
inductive LuaValue
  | VNil
  | VInt (n : ℤ)
  | VNum (q : ℚ)
  | VStr (s : String)
  | VFr (c : Cell)
deriving DecidableEq

/-- A raised Lua error (`luaL_argerror`): the offending argument index
and the message. -/
structure LuaErr where
  arg : ℕ
  msg : String
deriving DecidableEq

/-- `lua_isstring`: true for strings *and numbers* (a number is always
convertible to a string — Lua reference manual).  This is what routes
numeric `set` arguments into the string branch. -/
def luaIsstring : LuaValue → Bool
  | .VStr _ => true
  | .VInt _ => true
  | .VNum _ => true
  | _ => false

/-- `lua_isinteger`: true only for the integer subtype. -/
def luaIsinteger : LuaValue → Bool
  | .VInt _ => true
  | _ => false

/-- `lua_isnumber`: true for numbers.  Lua's numeric-string coercion is
not modelled — no claim passes numeric strings to operand positions. -/
def luaIsnumber : LuaValue → Bool
  | .VInt _ => true
  | .VNum _ => true
  | _ => false

/-- `lua_tointegerx`: the integer subtype always converts; a float
converts iff its value is integral and fits `lua_Integer` (64-bit). -/
def luaTointegerx : LuaValue → Option ℤ
  | .VInt n => some n
  | .VNum q =>
      if q.den = 1 ∧ -(2 ^ 63) ≤ q.num ∧ q.num < 2 ^ 63 then some q.num
      else none
  | _ => none

/-- `lua_tointeger` = `lua_tointegerx` with the success flag discarded:
failure silently yields 0. -/
def luaTointeger (v : LuaValue) : ℤ := (luaTointegerx v).getD 0

/-- `lua_tonumber` on a numeric value. -/
def luaTonumber : LuaValue → ℚ
  | .VInt n => n
  | .VNum q => q
  | _ => 0

/-- `luaL_checkudata(L, i, "mpfr_t")`. -/
def checkudata (i : ℕ) : LuaValue → Except LuaErr Cell
  | .VFr c => .ok c
  | _ => .error ⟨i, "mpfr_t expected"⟩

/-- `luaL_optinteger(L, i, d)`: absent or nil gives the default,
otherwise the argument must convert to an integer. -/
def optInteger (i : ℕ) (v : Option LuaValue) (d : ℤ) : Except LuaErr ℤ :=
  match v with
  | none => .ok d
  | some .VNil => .ok d
  | some w =>
      if luaIsnumber w then
        match luaTointegerx w with
        | some n => .ok n
        | none => .error ⟨i, "number has no integer representation"⟩
      else .error ⟨i, "number expected"⟩

/-- The `mpfr.h` integer value of a rounding mode. -/
def rndToInt : Rnd → ℤ
  | .N => 0
  | .Z => 1
  | .U => 2
  | .D => 3
  | .A => 4

/-- `_opt_base(L, i)` (lua_mpfr.c:28): optional integer defaulting to 10,
range-checked into [2, 62]. -/
def opt_base (i : ℕ) (v : Option LuaValue) : Except LuaErr ℤ := do
  let b ← optInteger i v 10
  if 2 ≤ b ∧ b ≤ 62 then pure b
  else .error ⟨i, "base must be between 2 and 62"⟩

/-- `_opt_rnd(L, i)` (lua_mpfr.c:38): optional integer defaulting to the
process-wide default rounding mode (`drnd`); passed to the engine as a
`mpfr_rnd_t` with no validation. -/
def opt_rnd (drnd : Rnd) (i : ℕ) (v : Option LuaValue) :
    Except LuaErr Rnd := do
  let n ← optInteger i v (rndToInt drnd)
  pure (rndOfInt n)

/-- The typed-operand union produced by `_check_value`. -/
inductive CheckedValue
  | VLong (n : ℤ)
  | VDouble (q : ℚ)
  | VMpfr (c : Cell)
deriving DecidableEq

/-- `_check_value(L, i, v)` (lua_mpfr.c:169): a Lua number that converts
exactly to `lua_Integer` (the `long` narrowing test `(v->i = x) == x` is
an identity on LP64) classifies as `V_LONG`; any other number as
`V_DOUBLE`; everything else must be an `mpfr_t` userdata. -/
def check_value (i : ℕ) (v : LuaValue) : Except LuaErr CheckedValue :=
  if luaIsnumber v then
    match luaTointegerx v with
    | some n => .ok (.VLong n)
    | none => .ok (.VDouble (luaTonumber v))
  else do
    let c ← checkudata i v
    pure (.VMpfr c)

/-! ### Digit alphabets, decimal printing, and number scanning -/

/-- MPFR's output digit alphabet (`mpfr_get_str`): for bases up to 36,
`0-9` then lowercase `a-z`; for bases 37–62, `0-9`, `A-Z`, `a-z`. -/
def digitChar (b d : ℕ) : Char :=
  if b ≤ 36 then
    if d < 10 then Char.ofNat (48 + d) else Char.ofNat (97 + d - 10)
  else
    if d < 10 then Char.ofNat (48 + d)
    else if d < 36 then Char.ofNat (65 + d - 10)
    else Char.ofNat (97 + d - 36)

/-- Digit value of an input character in base `b`
(`mpfr_set_str`/`mpfr_strtofr`): case-insensitive up to base 36,
case-sensitive (`A` = 10, `a` = 36) above. -/
def digitVal (b : ℕ) (c : Char) : Option ℕ :=
  let n := c.toNat
  let v : Option ℕ :=
    if 48 ≤ n ∧ n ≤ 57 then some (n - 48)
    else if 65 ≤ n ∧ n ≤ 90 then some (n - 55)
    else if 97 ≤ n ∧ n ≤ 122 then some (if b ≤ 36 then n - 87 else n - 61)
    else none
  match v with
  | some d => if d < b then some d else none
  | none => none

/-- Decimal digit string of a natural number, most significant digit
first (`"0"` for zero) — the host's `%d` formatting. -/
def natDecString (n : ℕ) : String :=
  if n = 0 then "0"
  else String.mk ((Nat.digits 10 n).reverse.map (digitChar 10))

/-- `%d` formatting of a signed integer (`lua_pushinteger` rendering). -/
def intDecString (i : ℤ) : String :=
  (if i < 0 then "-" else "") ++ natDecString i.natAbs

/-- `lua_tostring` on a value the C code knows is a string or a number
(Lua converts the number in place).  Integers use `"%d"`; the `"%.14g"`
float format is not modelled — no claim formats a float — and
non-integral floats map to the empty string here. -/
def luaTostring : LuaValue → String
  | .VStr s => s
  | .VInt n => intDecString n
  | .VNum q => if q.den = 1 then intDecString q.num else ""
  | _ => ""

/-- Longest prefix of base-`b` digits. -/
def scanDigits (b : ℕ) : List Char → List ℕ × List Char
  | [] => ([], [])
  | c :: cs =>
      match digitVal b c with
      | some d =>
          let p := scanDigits b cs
          (d :: p.1, p.2)
      | none => ([], c :: cs)

/-- Most-significant-first digit-list value. -/
def digitsToNat (b : ℕ) (ds : List ℕ) : ℕ :=
  ds.foldl (fun a d => a * b + d) 0

/-- Scan an exponent part: a marker (`@` in any base, `e`/`E` up to base
10), an optional sign, and at least one decimal digit (the exponent is
always read in base 10); `none` if the marker is not followed by a valid
exponent, in which case it is not consumed (`strtod`-style backtrack). -/
def scanExp (b : ℕ) (cs : List Char) : Option (ℤ × List Char) :=
  match cs with
  | [] => none
  | c :: t =>
      if c = '@' ∨ (b ≤ 10 ∧ (c = 'e' ∨ c = 'E')) then
        let sp : Bool × List Char :=
          if t.head? = some '-' then (true, t.tail)
          else if t.head? = some '+' then (false, t.tail)
          else (false, t)
        let p := scanDigits 10 sp.2
        if p.1.isEmpty then none
        else
          let e : ℤ := digitsToNat 10 p.1
          some (if sp.1 then -e else e, p.2)
      else none

/-- Result of `mpfr_strtofr`-style scanning: number of characters
consumed by the longest valid prefix, whether a number was found, its
sign, and its magnitude. -/
structure ScanResult where
  consumed : ℕ
  found : Bool
  neg : Bool
  mag : ℚ
deriving DecidableEq

/-- Scan a number in base `b` (2–62): optional sign, mantissa digits with
at most one point, optional exponent part.  MPFR's special-value tokens
(`@NaN@` etc.) and leading whitespace are not modelled — no claim parses
them. -/
def scanFr (b : ℕ) (cs : List Char) : ScanResult :=
  let sp : Bool × List Char :=
    if cs.head? = some '-' then (true, cs.tail)
    else if cs.head? = some '+' then (false, cs.tail)
    else (false, cs)
  let p1 := scanDigits b sp.2
  let pd : List ℕ × List Char :=
    if p1.2.head? = some '.' then scanDigits b p1.2.tail else ([], p1.2)
  let rest2 : List Char := pd.2
  if p1.1.isEmpty ∧ pd.1.isEmpty then ⟨0, false, false, 0⟩
  else
    let mag0 : ℚ :=
      (digitsToNat b (p1.1 ++ pd.1) : ℚ) * (b : ℚ) ^ (-(pd.1.length : ℤ))
    let we : ℚ × List Char :=
      match scanExp b rest2 with
      | some pe => (mag0 * (b : ℚ) ^ pe.1, pe.2)
      | none => (mag0, rest2)
    ⟨cs.length - we.2.length, true, sp.1, we.1⟩

/-- `mpfr_set_str(z, s, b, r)` (modelled on `mpfr_strtofr` plus the
full-consumption check): returns the updated cell and 0 on success, −1 on
failure.  The cell is written in *both* cases — on failure it holds the
value of the longest valid prefix (zero when there is none), mirroring
`strtod`; this write-before-check is what breaks error atomicity for
`set`. -/
def mpfrSetStr (z : Cell) (s : String) (b : ℕ) (r : Rnd) : Cell × ℤ :=
  let sc := scanFr b s.toList
  let v : MpfrVal :=
    if sc.found = false then .zero false
    else if sc.mag = 0 then .zero sc.neg
    else .reg (round z.prec r (if sc.neg then -sc.mag else sc.mag))
  ({ z with val := v },
    if sc.found = true ∧ sc.consumed = s.length then 0 else -1)

/-! ### `mpfr_get_str` -/

/-- The `n`-significant-digit base-`b` rounding of a regular value, per
`mpfr_get_str`: the result `(D, F)` satisfies `|D| ∈ [b^(n-1), b^n)` and
represents the rounded value `D·b^(F−n)` (the digit string is `|D|` in
base `b` and the written exponent is `F`, with an implicit radix point
before the first digit); a rounding carry out of the top digit
renormalises. -/
def getStrDigits (b n : ℕ) (r : Rnd) (q : ℚ) : ℤ × ℤ :=
  let F0 : ℤ := Int.log b |q| + 1
  let D0 : ℤ := iround r (q * (b : ℚ) ^ ((n : ℤ) - F0))
  if D0.natAbs = b ^ n then
    (if D0 < 0 then -((b : ℤ) ^ (n - 1)) else (b : ℤ) ^ (n - 1), F0 + 1)
  else (D0, F0)

/-- `mpfr_get_str` on a regular value: the digit string (leading minus
for negative values) and the exponent.  With `n = 0` MPFR chooses
`m = 1 + ⌈p·log 2/log b⌉` digits, which guarantees exact re-reading at
nearest (proved below as the round-trip theorem rather than assumed). -/
def mpfr_get_str (b n : ℕ) (r : Rnd) (p : ℕ) (q : ℚ) : String × ℤ :=
  let n1 := if n = 0 then 1 + Nat.clog b (2 ^ p) else n
  let dF := getStrDigits b n1 r q
  let ds := (Nat.digits b dF.1.natAbs).reverse.map (digitChar b)
  (if dF.1 < 0 then String.mk ('-' :: ds) else String.mk ds, dF.2)

/-! ### The binding's Lua-facing functions (the wrappers under claim) -/

/-- `fr_tostring` (lua_mpfr.c:47): `tostring(self, [base], [n], [rnd])`.
The destination is never written; specials print as MPFR's fixed tokens
(`mpfr_get_str` into a 7-byte buffer); zero prints as `"0"`/`"-0"`; a
regular value gets the buffer surgery: strip a leading minus, insert a
point after the first digit, and append `@`/`e` plus the adjusted
exponent when `e − 1 ≠ 0`.  The `lua_Integer` digit count is cast to
`size_t`. -/
def fr_tostring (drnd : Rnd) (z : Cell) (a2 a3 a4 : Option LuaValue) :
    Except LuaErr String := do
  let b ← opt_base 2 a2
  let n ← optInteger 3 a3 0
  let r ← opt_rnd drnd 4 a4
  let n1 : ℕ := (n % 2 ^ 64).toNat
  if numberP z.val = false then
    pure (match z.val with
      | .nan => "@NaN@"
      | .inf s => if s then "-@Inf@" else "@Inf@"
      | _ => "")
  else if zeroP z.val then
    pure (if signbitVal z.val then "-0" else "0")
  else
    match z.val with
    | .reg q =>
        let gs := mpfr_get_str b.toNat n1 r z.prec q
        let cs := gs.1.toList
        let sp : List Char × List Char :=
          if cs.head? = some '-' then (['-'], cs.tail) else ([], cs)
        let core : List Char :=
          match sp.2 with
          | [] => []
          | d :: t => d :: '.' :: t
        let ex : List Char :=
          if gs.2 - 1 ≠ 0 then
            (if b > 10 then '@' else 'e') :: (intDecString (gs.2 - 1)).toList
          else []
        pure (String.mk (sp.1 ++ core ++ ex))
    | _ => pure ""

/-- `fr_set` (lua_mpfr.c:188): `set(self, number|string|mpfr, ...)`.
Returns the final destination contents together with the raised error, if
any — the string branch writes the destination before the parse-error
check.  `lua_isstring` is also true for numbers, so every numeric second
argument takes the string branch, where argument 3 is a *base*. -/
def fr_set (drnd : Rnd) (z : Cell) (v : LuaValue) (a3 a4 : Option LuaValue) :
    Cell × Option LuaErr :=
  if luaIsstring v then
    match opt_rnd drnd 4 a4 with
    | .error e => (z, some e)
    | .ok r =>
        match opt_base 3 a3 with
        | .error e => (z, some e)
        | .ok b =>
            let res := mpfrSetStr z (luaTostring v) b.toNat r
            if res.2 = 0 then (res.1, none)
            else (res.1, some ⟨2, "not a valid number in given base"⟩)
  else
    match opt_rnd drnd 3 a3 with
    | .error e => (z, some e)
    | .ok r =>
        match check_value 2 v with
        | .error e => (z, some e)
        | .ok (.VLong n) => (mpfr_set_si z n r, none)
        | .ok (.VDouble d) => (mpfr_set_d z d r, none)
        | .ok (.VMpfr c) => (mpfr_set z c.val r, none)

/-- `fr_fn1u` (lua_mpfr.c:359): the dispatcher registered for `sqrt` and
`zeta`.  The two engine variants arrive as closure upvalues and are
parameters here.  The test is `lua_isinteger`: only the integer *subtype*
selects the unsigned-long variant. -/
def fr_fn1u (fnFr : Cell → MpfrVal → Rnd → Cell)
    (fnUi : Cell → ℕ → Rnd → Cell) (drnd : Rnd)
    (a1 a2 : LuaValue) (a3 : Option LuaValue) :
    Except LuaErr Cell := do
  let z ← checkudata 1 a1
  let r ← opt_rnd drnd 3 a3
  if luaIsinteger a2 then
    let i := luaTointeger a2
    if 0 ≤ i ∧ i ≤ ULONG_MAX then pure (fnUi z i.toNat r)
    else .error ⟨2, "out of range of unsigned long"⟩
  else do
    let x ← checkudata 2 a2
    pure (fnFr z x.val r)

/-- `fr_fac` (lua_mpfr.c:448).  Note `lua_tointeger`, not
`luaL_checkinteger`: a non-numeric second argument silently converts to 0
and no type error is raised. -/
def fr_fac (drnd : Rnd) (a1 a2 : LuaValue) (a3 : Option LuaValue) :
    Except LuaErr Cell := do
  let z ← checkudata 1 a1
  let i := luaTointeger a2
  if 0 ≤ i ∧ i ≤ ULONG_MAX then do
    let r ← opt_rnd drnd 3 a3
    pure (mpfr_fac_ui z i.toNat r)
  else .error ⟨2, "out of range of unsigned long"⟩

/-- `fr_fn2` (lua_mpfr.c:512): the mixed-shape binary dispatcher.  Up to
five engine variants arrive as closure upvalues (slots 4 and 5 absent for
commutative operations read as NULL, hence `Option`); they are parameters
here. -/
def fr_fn2
    (fr_fr : Cell → MpfrVal → MpfrVal → Rnd → Cell)
    (fr_si : Cell → MpfrVal → ℤ → Rnd → Cell)
    (fr_d : Cell → MpfrVal → ℚ → Rnd → Cell)
    (si_fr : Option (Cell → ℤ → MpfrVal → Rnd → Cell))
    (d_fr : Option (Cell → ℚ → MpfrVal → Rnd → Cell))
    (drnd : Rnd) (a1 a2 a3 : LuaValue) (a4 : Option LuaValue) :
    Except LuaErr Cell := do
  let z ← checkudata 1 a1
  let xt ← check_value 2 a2
  let r ← opt_rnd drnd 4 a4
  match xt with
  | .VMpfr x =>
      match ← check_value 3 a3 with
      | .VLong n => pure (fr_si z x.val n r)
      | .VDouble d => pure (fr_d z x.val d r)
      | .VMpfr y => pure (fr_fr z x.val y.val r)
  | .VLong n => do
      let y ← checkudata 3 a3
      match si_fr with
      | some f => pure (f z n y.val r)
      | none => pure (fr_si z y.val n r)
  | .VDouble d => do
      let y ← checkudata 3 a3
      match d_fr with
      | some f => pure (f z d y.val r)
      | none => pure (fr_d z y.val d r)

/-- The `add` entry of `_fn2_reg` (lua_mpfr.c:590, `FN3`: no left-operand
variants). -/
def addDispatch (drnd : Rnd) (a1 a2 a3 : LuaValue) (a4 : Option LuaValue) :
    Except LuaErr Cell :=
  fr_fn2 mpfr_add mpfr_add_si mpfr_add_d none none drnd a1 a2 a3 a4

/-- The `sub` entry of `_fn2_reg` (lua_mpfr.c:591, `FN5`: all five
variants). -/
def subDispatch (drnd : Rnd) (a1 a2 a3 : LuaValue) (a4 : Option LuaValue) :
    Except LuaErr Cell :=
  fr_fn2 mpfr_sub mpfr_sub_si mpfr_sub_d (some mpfr_si_sub)
    (some mpfr_d_sub) drnd a1 a2 a3 a4

/-- `fr_pow` (lua_mpfr.c:615).  The handle-exponent primitives
`mpfr_ui_pow` and `mpfr_pow` compute transcendental powers inside the
out-of-scope engine; they are parameters here (no claim reaches those
branches).  Note that every range check — including the ones on the
exponent `i2`, which sits at stack index 3 — names argument 2. -/
def fr_pow
    (ui_pow : Cell → ℕ → MpfrVal → Rnd → Cell)
    (pow_fr : Cell → MpfrVal → MpfrVal → Rnd → Cell)
    (drnd : Rnd) (a1 a2 a3 : LuaValue) (a4 : Option LuaValue) :
    Except LuaErr Cell := do
  let z ← checkudata 1 a1
  let i1 := luaTointegerx a2
  let i2 := luaTointegerx a3
  let r ← opt_rnd drnd 4 a4
  match i1 with
  | some n1 =>
      if 0 ≤ n1 ∧ n1 ≤ ULONG_MAX then
        match i2 with
        | some n2 =>
            if 0 ≤ n2 ∧ n2 ≤ ULONG_MAX then
              pure (mpfr_ui_pow_ui z n1.toNat n2.toNat r)
            else .error ⟨2, "out of range of unsigned long"⟩
        | none => do
            let y ← checkudata 3 a3
            pure (ui_pow z n1.toNat y.val r)
      else .error ⟨2, "out of range of unsigned long"⟩
  | none => do
      let x ← checkudata 2 a2
      match i2 with
      | some n2 =>
          if n2 < 0 then
            if LONG_MIN ≤ n2 then pure (mpfr_pow_si z x.val n2 r)
            else .error ⟨2, "out of range of long"⟩
          else
            if n2 ≤ ULONG_MAX then pure (mpfr_pow_ui z x.val n2.toNat r)
            else .error ⟨2, "out of range of unsigned long"⟩
      | none => do
          let y ← checkudata 3 a3
          pure (pow_fr z x.val y.val r)

/-- `fr_copysign` (lua_mpfr.c:892).  The body is one comma-expression:
the `luaL_checkudata`/`_opt_rnd` results are discarded, the locals
`z, x, y, r` are never assigned, and `mpfr_copysign` is invoked on
indeterminate pointers (undefined behaviour).  The destination handle is
never written through argument 1; modelled as: validate the three handles
and the rounding argument, then return the destination unchanged. -/
def fr_copysign (drnd : Rnd) (a1 a2 a3 : LuaValue) (a4 : Option LuaValue) :
    Except LuaErr Cell := do
  let z ← checkudata 1 a1
  let _ ← checkudata 2 a2
  let _ ← checkudata 3 a3
  let _ ← opt_rnd drnd 4 a4
  pure z

/-! ### Basic facts about integer rounding -/

theorem itrunc_intCast (z : ℤ) : itrunc (z : ℚ) = z := by
  unfold itrunc
  split <;> simp

theorem iaway_intCast (z : ℤ) : iaway (z : ℚ) = z := by
  unfold iaway
  split <;> simp

theorem inearest_intCast (z : ℤ) : inearest (z : ℚ) = z := by
  unfold inearest
  rw [Int.fract_intCast]
  norm_num

theorem iround_intCast (r : Rnd) (z : ℤ) : iround r (z : ℚ) = z := by
  cases r <;>
    simp [iround, itrunc_intCast, iaway_intCast, inearest_intCast]

theorem floor_le_itrunc (m : ℚ) : ⌊m⌋ ≤ itrunc m := by
  unfold itrunc
  split
  · exact le_refl _
  · exact Int.floor_le_ceil m

theorem itrunc_le_ceil (m : ℚ) : itrunc m ≤ ⌈m⌉ := by
  unfold itrunc
  split
  · exact Int.floor_le_ceil m
  · exact le_refl _

theorem floor_le_iaway (m : ℚ) : ⌊m⌋ ≤ iaway m := by
  unfold iaway
  split
  · exact Int.floor_le_ceil m
  · exact le_refl _

theorem iaway_le_ceil (m : ℚ) : iaway m ≤ ⌈m⌉ := by
  unfold iaway
  split
  · exact le_refl _
  · exact Int.floor_le_ceil m

theorem floor_le_inearest (m : ℚ) : ⌊m⌋ ≤ inearest m := by
  unfold inearest
  split
  · exact le_refl _
  · split
    · exact le_of_lt (lt_add_one _)
    · split
      · exact le_refl _
      · exact le_of_lt (lt_add_one _)

theorem inearest_le_floor_add_one (m : ℚ) : inearest m ≤ ⌊m⌋ + 1 := by
  unfold inearest
  split
  · exact le_of_lt (lt_add_one _)
  · split
    · exact le_refl _
    · split
      · exact le_of_lt (lt_add_one _)
      · exact le_refl _

theorem floor_le_iround (r : Rnd) (m : ℚ) : ⌊m⌋ ≤ iround r m := by
  cases r
  · exact floor_le_inearest m
  · exact floor_le_itrunc m
  · exact Int.floor_le_ceil m
  · exact le_refl _
  · exact floor_le_iaway m

theorem ceil_eq_floor_add_one_of_fract_ne {m : ℚ} (h : Int.fract m ≠ 0) :
    ⌈m⌉ = ⌊m⌋ + 1 := by
  rcases Int.fract_eq_zero_or_add_one_sub_ceil m with h0 | h1
  · exact absurd h0 h
  · have h2 : m - (⌊m⌋ : ℚ) = m + 1 - (⌈m⌉ : ℚ) := by
      rw [Int.self_sub_floor] at *
      exact h1
    have h3 : ((⌈m⌉ : ℚ)) = ((⌊m⌋ : ℚ)) + 1 := by linarith
    exact_mod_cast h3

theorem inearest_le_ceil (m : ℚ) : inearest m ≤ ⌈m⌉ := by
  unfold inearest
  split
  · exact Int.floor_le_ceil m
  · have hne : Int.fract m ≠ 0 := by
      intro h0
      simp [h0] at *
    rw [ceil_eq_floor_add_one_of_fract_ne hne]
    split
    · exact le_refl _
    · split
      · exact le_of_lt (lt_add_one _)
      · exact le_refl _

theorem iround_le_ceil (r : Rnd) (m : ℚ) : iround r m ≤ ⌈m⌉ := by
  cases r
  · exact inearest_le_ceil m
  · exact itrunc_le_ceil m
  · exact le_refl _
  · exact Int.floor_le_ceil m
  · exact iaway_le_ceil m

/-! ### Exactness: rounding is the identity on representable values -/

theorem round_exact (p : ℕ) (r : Rnd) {q : ℚ} (h : isRep p q) :
    round p r q = q := by
  rcases eq_or_ne q 0 with h0 | h0
  · simp [round, h0]
  · obtain ⟨m, e, hm, hq⟩ := h
    unfold round
    rw [if_neg h0]
    have h2 : (0 : ℚ) < 2 := by norm_num
    have habs : |q| = |(m : ℚ)| * 2 ^ e := by
      rw [hq, abs_mul, abs_of_pos (zpow_pos h2 e)]
    have hmq : |(m : ℚ)| < 2 ^ p := by
      rw [← Int.cast_abs]
      exact_mod_cast hm
    have hqlt : |q| < ((2 : ℕ) : ℚ) ^ ((p : ℤ) + e) := by
      push_cast
      rw [habs, zpow_add₀ (ne_of_gt h2), zpow_natCast]
      exact mul_lt_mul_of_pos_right hmq (zpow_pos h2 e)
    have hlog : Int.log 2 |q| < (p : ℤ) + e :=
      (Int.lt_zpow_iff_log_lt (by norm_num) (abs_pos.mpr h0)).mp hqlt
    set s : ℤ := (p : ℤ) - 1 - Int.log 2 |q| with hs
    have hns : Int.log 2 |q| + 1 - (p : ℤ) = -s := by omega
    rw [hns]
    have hes : 0 ≤ e + s := by omega
    have hqs : q * (2 : ℚ) ^ s = ((m * 2 ^ (e + s).toNat : ℤ) : ℚ) := by
      rw [hq]
      push_cast
      rw [mul_assoc, ← zpow_natCast (2 : ℚ) (e + s).toNat,
        Int.toNat_of_nonneg hes, ← zpow_add₀ (ne_of_gt h2)]
    rw [hqs, iround_intCast]
    rw [← hqs]
    rw [mul_assoc, ← zpow_add₀ (ne_of_gt h2), add_neg_cancel, zpow_zero,
      mul_one]

/-! ### Sign symmetry of rounding (nearest, toward-zero, away-from-zero) -/

theorem itrunc_neg (m : ℚ) : itrunc (-m) = -itrunc m := by
  unfold itrunc
  rcases lt_trichotomy m 0 with h | h | h
  · rw [if_pos (by linarith), if_neg (by linarith), Int.floor_neg]
  · simp [h]
  · rw [if_neg (by linarith), if_pos (by linarith), Int.ceil_neg]

theorem iaway_neg (m : ℚ) : iaway (-m) = -iaway m := by
  unfold iaway
  rcases lt_trichotomy m 0 with h | h | h
  · rw [if_pos (by linarith), if_neg (by linarith), Int.ceil_neg]
  · simp [h]
  · rw [if_neg (by linarith), if_pos (by linarith), Int.floor_neg]

theorem inearest_neg (m : ℚ) : inearest (-m) = -inearest m := by
  rcases eq_or_ne (Int.fract m) 0 with h0 | h0
  · have hm : m = (⌊m⌋ : ℚ) := by
      have := Int.self_sub_floor m
      rw [h0] at this
      linarith
    rw [hm, ← Int.cast_neg, inearest_intCast, inearest_intCast]
  · have hfn : Int.fract (-m) = 1 - Int.fract m := Int.fract_neg h0
    have hfl : ⌊-m⌋ = -⌊m⌋ - 1 := by
      rw [Int.floor_neg, ceil_eq_floor_add_one_of_fract_ne h0]
      ring
    have h1 : 0 < Int.fract m :=
      lt_of_le_of_ne (Int.fract_nonneg m) (Ne.symm h0)
    have h2 : Int.fract m < 1 := Int.fract_lt_one m
    unfold inearest
    rw [hfn, hfl]
    rcases lt_trichotomy (Int.fract m) (1 / 2) with h | h | h
    · have ha : ¬(1 - Int.fract m < 1 / 2) := by linarith
      have hb : 1 / 2 < 1 - Int.fract m := by linarith
      rw [if_neg ha, if_pos hb, if_pos h]
      ring
    · have ha : ¬(1 - Int.fract m < 1 / 2) := by rw [h]; norm_num
      have hb : ¬(1 / 2 < 1 - Int.fract m) := by rw [h]; norm_num
      have hc : ¬(Int.fract m < 1 / 2) := by rw [h]; exact lt_irrefl _
      have hd : ¬(1 / 2 < Int.fract m) := by rw [h]; exact lt_irrefl _
      rw [if_neg ha, if_neg hb, if_neg hc, if_neg hd]
      by_cases hp : (2 : ℤ) ∣ ⌊m⌋
      · have hp2 : ¬((2 : ℤ) ∣ -⌊m⌋ - 1) := by omega
        rw [if_neg hp2, if_pos hp]
        ring
      · have hp2 : (2 : ℤ) ∣ -⌊m⌋ - 1 := by omega
        rw [if_pos hp2, if_neg hp]
        ring
    · have ha : 1 - Int.fract m < 1 / 2 := by linarith
      have hc : ¬(Int.fract m < 1 / 2) := by linarith
      rw [if_pos ha, if_neg hc, if_pos h]
      ring

theorem iround_neg {r : Rnd} (hr : signSym r) (m : ℚ) :
    iround r (-m) = -iround r m := by
  cases r
  · exact inearest_neg m
  · exact itrunc_neg m
  · exact absurd hr not_false
  · exact absurd hr not_false
  · exact iaway_neg m

theorem round_neg (p : ℕ) {r : Rnd} (hr : signSym r) (q : ℚ) :
    round p r (-q) = -round p r q := by
  rcases eq_or_ne q 0 with h0 | h0
  · simp [round, h0]
  · unfold round
    rw [if_neg (neg_ne_zero.mpr h0), if_neg h0, abs_neg, neg_mul,
      iround_neg hr, Int.cast_neg, neg_mul]

/-! ### Concrete evaluation helpers -/

theorem log2_abs_eq {q : ℚ} {E : ℤ} (h1 : ((2 : ℕ) : ℚ) ^ E ≤ |q|)
    (h2 : |q| < ((2 : ℕ) : ℚ) ^ (E + 1)) : Int.log 2 |q| = E := by
  have hq : (0 : ℚ) < |q| := lt_of_lt_of_le (by positivity) h1
  have hl : E ≤ Int.log 2 |q| :=
    (Int.zpow_le_iff_le_log (by norm_num) hq).mp h1
  have hu : Int.log 2 |q| < E + 1 :=
    (Int.lt_zpow_iff_log_lt (by norm_num) hq).mp h2
  omega

/-- Evaluate `round` on a concrete input: supply the binade exponent `E`
of `q` and the rounded scaled significand `D`. -/
theorem round_eq_of (p : ℕ) (r : Rnd) (q : ℚ) (E D : ℤ)
    (hq : q ≠ 0)
    (h1 : ((2 : ℕ) : ℚ) ^ E ≤ |q|) (h2 : |q| < ((2 : ℕ) : ℚ) ^ (E + 1))
    (hD : iround r (q * 2 ^ ((p : ℤ) - 1 - E)) = D) :
    round p r q = (D : ℚ) * 2 ^ (E + 1 - (p : ℤ)) := by
  unfold round
  rw [if_neg hq, log2_abs_eq h1 h2, hD]

/-! ### Concrete-evaluation toolkit -/

theorem rndOfInt_rndToInt (r : Rnd) : rndOfInt (rndToInt r) = r := by
  cases r <;> rfl

theorem floor_eval {q : ℚ} {z : ℤ} (h1 : (z : ℚ) ≤ q) (h2 : q < z + 1) :
    ⌊q⌋ = z :=
  Int.floor_eq_iff.mpr ⟨h1, h2⟩

theorem ceil_eval {q : ℚ} {z : ℤ} (h1 : (z : ℚ) - 1 < q) (h2 : q ≤ z) :
    ⌈q⌉ = z :=
  Int.ceil_eq_iff.mpr ⟨h1, h2⟩

theorem inearest_eval_lo {q : ℚ} {z : ℤ} (h1 : (z : ℚ) ≤ q)
    (h2 : q < z + 1 / 2) : inearest q = z := by
  have hf : ⌊q⌋ = z := floor_eval h1 (by linarith)
  unfold inearest
  rw [if_pos]
  · exact hf
  · rw [Int.fract, hf]
    linarith

theorem inearest_eval_hi {q : ℚ} {z : ℤ} (h1 : (z : ℚ) - 1 / 2 < q)
    (h2 : q ≤ z) : inearest q = z := by
  rcases eq_or_ne q z with hq | hq
  · subst hq
    exact inearest_intCast z
  · have hlt : q < z := lt_of_le_of_ne h2 hq
    have hf : ⌊q⌋ = z - 1 := floor_eval (by push_cast; linarith)
      (by push_cast; linarith)
    have hfr : Int.fract q = q - ((z : ℚ) - 1) := by
      rw [Int.fract, hf]
      push_cast
      ring
    unfold inearest
    rw [if_neg, if_pos]
    · omega
    · rw [hfr]; linarith
    · rw [hfr]; linarith

theorem round_eval_pos (p : ℕ) (r : Rnd) (q : ℚ) (E D : ℤ)
    (h0 : 0 < q) (h1 : ((2 : ℕ) : ℚ) ^ E ≤ q)
    (h2 : q < ((2 : ℕ) : ℚ) ^ (E + 1))
    (hD : iround r (q * 2 ^ ((p : ℤ) - 1 - E)) = D) :
    round p r q = (D : ℚ) * 2 ^ (E + 1 - (p : ℤ)) :=
  round_eq_of p r q E D (ne_of_gt h0) (by rw [abs_of_pos h0]; exact h1)
    (by rw [abs_of_pos h0]; exact h2) hD

theorem round_one (p : ℕ) (r : Rnd) (hp : 1 ≤ p) : round p r 1 = 1 :=
  round_exact p r ⟨1, 0, by
    calc |(1 : ℤ)| = 2 ^ 0 := by norm_num
      _ < 2 ^ p := by exact pow_lt_pow_right₀ (by norm_num) hp, by norm_num⟩

theorem round_intPow2 (p : ℕ) (r : Rnd) (k : ℕ) (hp : 1 ≤ p) :
    round p r ((2 : ℚ) ^ k) = 2 ^ k := by
  have h := round_exact p r (q := (2 : ℚ) ^ k) ⟨1, k, by
    calc |(1 : ℤ)| = 2 ^ 0 := by norm_num
      _ < 2 ^ p := by exact pow_lt_pow_right₀ (by norm_num) hp, by
    rw [Int.cast_one, one_mul, zpow_natCast]⟩
  exact h

/-! ### Claim C2 -/

/-- C2: the claim states that for every handle `z`, host number `x`
(machine integer or native float) and valid rounding mode `r`, the call
`set(z, x, r)` succeeds, stores `x` rounded per `r` at `z`'s precision,
and returns `z`.  The code's own comment (`set(self, number, [rnd])`)
documents the same intent, but `lua_isstring` is also true for numbers,
so a numeric second argument is converted to text and routed through the
string branch, where the rounding-mode argument is consumed as a *base*:
`set(z, 11, MPFR_RNDU)` (mode 2) parses `"11"` in base 2 and silently
stores 3 with no error, whereas the intended `mpfr_set_si` call stores
11. -/
theorem c2_set_misroutes_numbers :
    fr_set .N ⟨8, .zero false⟩ (.VInt 11) (some (.VInt (rndToInt .U)))
        none = (⟨8, .reg 3⟩, none) ∧
    mpfr_set_si ⟨8, .zero false⟩ 11 .U = ⟨8, .reg 11⟩ := by
  constructor
  · have hs : ("11").toList = ['1', '1'] := rfl
    have hl : ("11").length = 2 := rfl
    have h3 : round 8 Rnd.N 3 = 3 :=
      round_exact 8 .N ⟨3, 0, by norm_num, by norm_num⟩
    simp [fr_set, luaIsstring, opt_rnd, optInteger, luaIsnumber,
      luaTointegerx, rndToInt, rndOfInt, opt_base, luaTostring,
      intDecString, natDecString, Nat.digits_def', digitChar, mpfrSetStr,
      hs, hl, scanFr, scanDigits, digitVal, scanExp, digitsToNat,
      roundVal, bind, Except.bind, pure, Except.pure, h3]
  · have h11 : round 8 Rnd.U 11 = 11 :=
      round_exact 8 .U ⟨11, 0, by norm_num, by norm_num⟩
    simp [mpfr_set_si, roundVal, exactInt, h11]

/-! ### Claim C3 -/

/-- C3: the claim states `copysign(d, x, y)` stores into `d` the value of
`x` with the sign of `y` and returns the mutated `d`.  The C body of
`fr_copysign` is a single comma-expression that discards every
`luaL_checkudata` result and never assigns the locals `z, x, y, r`, so
`mpfr_copysign` runs on indeterminate pointers and the destination is
never written: with `d = +0`, `x = 1`, `y = -2` the call returns `d`
still holding `+0`, while the documented `mpfr_copysign` result is
`-1`. -/
theorem c3_copysign_never_writes :
    fr_copysign .N (.VFr ⟨8, .zero false⟩) (.VFr ⟨8, .reg 1⟩)
        (.VFr ⟨8, .reg (-2)⟩) none = .ok ⟨8, .zero false⟩ ∧
    copysignVal 8 .N (.reg 1) (.reg (-2)) = .reg (-1) := by
  constructor
  · rfl
  · have h1 : round 8 Rnd.N (-1) = -1 :=
      round_exact 8 .N ⟨-1, 0, by norm_num, by norm_num⟩
    simp [copysignVal, signbitVal]
    norm_num [h1]

/-! ### Claim C5 -/

/-- C5 counterexample: the claim states that whenever `set(z, s, base, r)`
raises a parse error the destination is left unmodified.  But the C code
calls `mpfr_set_str` — which writes the destination — *before* testing
its return value: `set(z, "1z", 10, RNDN)` with `z = 7` raises the parse
error naming argument 2, yet leaves `z` holding 1 (the value of the
longest valid prefix `"1"`), not its original 7. -/
theorem c5_counterexample :
    fr_set .N ⟨8, .reg 7⟩ (.VStr "1z") (some (.VInt 10))
        (some (.VInt 0)) =
      (⟨8, .reg 1⟩, some ⟨2, "not a valid number in given base"⟩) ∧
    (⟨8, .reg 1⟩ : Cell) ≠ ⟨8, .reg 7⟩ := by
  constructor
  · have hs : ("1z").toList = ['1', 'z'] := rfl
    have hl : ("1z").length = 2 := rfl
    have h1 : round 8 Rnd.N 1 = 1 := round_one 8 .N (by norm_num)
    simp [fr_set, luaIsstring, opt_rnd, optInteger, luaIsnumber,
      luaTointegerx, rndToInt, rndOfInt, opt_base, luaTostring, mpfrSetStr,
      hs, hl, scanFr, scanDigits, digitVal, scanExp, digitsToNat, roundVal,
      bind, Except.bind, pure, Except.pure, h1]
  · simp [Cell.mk.injEq]

/-! ### Claim C6 -/

/-- C6: the claim states every argument range error names the offending
argument's index, and in particular an out-of-range `pow` exponent (the
third argument) is reported at position 3.  The code copies argument
index 2 into every `luaL_argcheck` of `fr_pow`: `pow(z, 2, -3)` fails the
exponent range check but the raised error names argument 2, not 3 (for
any engine power primitives and any destination handle). -/
theorem c6_pow_range_error_names_arg2
    (uiP : Cell → ℕ → MpfrVal → Rnd → Cell)
    (powF : Cell → MpfrVal → MpfrVal → Rnd → Cell) (z : Cell) :
    fr_pow uiP powF .N (.VFr z) (.VInt 2) (.VInt (-3)) none =
      .error ⟨2, "out of range of unsigned long"⟩ := by
  simp [fr_pow, checkudata, luaTointegerx, opt_rnd, optInteger, rndToInt,
    rndOfInt, ULONG_MAX, bind, Except.bind, pure, Except.pure]

/-! ### Claim C7 -/

/-- C7: the claim states `fac(z, k, r)` with a non-numeric `k` raises a
type error naming argument 2 and leaves `z` unmodified.  But `fr_fac`
reads its argument with `lua_tointeger` (not `luaL_checkinteger`), which
silently yields 0 for non-numeric values: `fac(z, nil)` raises no error
and overwrites `z` with `0! = 1`. -/
theorem c7_fac_accepts_non_numeric (z : Cell) :
    fr_fac .N (.VFr z) .VNil none = .ok (mpfr_fac_ui z 0 .N) ∧
    mpfr_fac_ui ⟨8, .zero false⟩ 0 .N = ⟨8, .reg 1⟩ := by
  constructor
  · simp [fr_fac, checkudata, luaTointeger, luaTointegerx, opt_rnd,
      optInteger, rndToInt, rndOfInt, ULONG_MAX, bind, Except.bind, pure,
      Except.pure]
  · have h1 : round 8 Rnd.N 1 = 1 := round_one 8 .N (by norm_num)
    simp [mpfr_fac_ui, Nat.factorial, h1]

/-- C5 amended: `set(z, s, base, r)` with an invalid string raises the
parse error naming argument 2 (non-numeric text is never a silent NaN),
but the destination may already hold the longest-prefix value of the
failed parse; for the error classes whose checks precede the engine call
— an out-of-range base (reported at argument 3) and a second argument
that is neither string, number, nor handle (reported at argument 2) — the
destination is untouched. -/
theorem c5_amended (drnd : Rnd) (z : Cell) (s : String) (b r : ℤ)
    (hb : 2 ≤ b ∧ b ≤ 62)
    (hfail : ¬((scanFr b.toNat s.toList).found = true ∧
      (scanFr b.toNat s.toList).consumed = s.length)) :
    (fr_set drnd z (.VStr s) (some (.VInt b)) (some (.VInt r))).2 =
      some ⟨2, "not a valid number in given base"⟩ ∧
    (∀ b2 : ℤ, ¬(2 ≤ b2 ∧ b2 ≤ 62) →
      fr_set drnd z (.VStr s) (some (.VInt b2)) (some (.VInt r)) =
        (z, some ⟨3, "base must be between 2 and 62"⟩)) ∧
    fr_set drnd z .VNil (some (.VInt r)) none =
      (z, some ⟨2, "mpfr_t expected"⟩) := by
  refine ⟨?_, ?_, ?_⟩
  · have hfail2 : ¬((scanFr b.toNat s.data).found = true ∧
        (scanFr b.toNat s.data).consumed = s.length) := hfail
    simp [fr_set, luaIsstring, opt_rnd, optInteger, luaIsnumber,
      luaTointegerx, opt_base, bind, Except.bind, pure, Except.pure, hb.1,
      hb.2, mpfrSetStr, luaTostring]
    rw [if_neg hfail2]
  · intro b2 hb2
    simp [fr_set, luaIsstring, opt_rnd, optInteger, luaIsnumber,
      luaTointegerx, opt_base, bind, Except.bind, pure, Except.pure, hb2]
  · simp [fr_set, luaIsstring, opt_rnd, optInteger, luaIsnumber,
      luaTointegerx, check_value, checkudata, bind, Except.bind, pure,
      Except.pure]

/-- C5 amended, witness: the concrete instance `z = 7`, `s = "1z"`,
base 10, `r = RNDN`. -/
theorem c5_amended_witness :
    (¬(((scanFr (10 : ℤ).toNat ("1z").toList).found = true ∧
        (scanFr (10 : ℤ).toNat ("1z").toList).consumed =
          ("1z").length))) ∧
    ((fr_set .N ⟨8, .reg 7⟩ (.VStr "1z") (some (.VInt 10))
        (some (.VInt 0))).2 =
      some ⟨2, "not a valid number in given base"⟩ ∧
    (∀ b2 : ℤ, ¬(2 ≤ b2 ∧ b2 ≤ 62) →
      fr_set .N ⟨8, .reg 7⟩ (.VStr "1z") (some (.VInt b2))
          (some (.VInt 0)) =
        (⟨8, .reg 7⟩, some ⟨3, "base must be between 2 and 62"⟩)) ∧
    fr_set .N ⟨8, .reg 7⟩ .VNil (some (.VInt 0)) none =
      (⟨8, .reg 7⟩, some ⟨2, "mpfr_t expected"⟩)) := by
  have hs : ("1z").toList = ['1', 'z'] := rfl
  have hfail : ¬(((scanFr (10 : ℤ).toNat ("1z").toList).found = true ∧
      (scanFr (10 : ℤ).toNat ("1z").toList).consumed = ("1z").length)) := by
    intro hcon
    have hc : (scanFr (Int.toNat 10) ['1', 'z']).consumed = 1 := rfl
    have hlen : ("1z").length = 2 := rfl
    rw [hs] at hcon
    rw [hc, hlen] at hcon
    exact absurd hcon.2 (by norm_num)
  exact ⟨hfail, c5_amended .N ⟨8, .reg 7⟩ "1z" 10 0 (by norm_num) hfail⟩

/-! ### Claim C1 -/

/-- C1 counterexample: the claim quantifies over every rounding mode `r`,
asserting `sub(d, 5, h, r)` equals the negation of `sub(d, h, 5, r)`.
Directed rounding is not sign-symmetric: at precision 3 with
`h = 1/4` and `r = MPFR_RNDU`, `sub(d, 5, h, RNDU)` stores
`RNDU(4.75) = 5`, while `sub(d, h, 5, RNDU)` stores `RNDU(-4.75) = -4`,
whose negation is 4 ≠ 5. -/
theorem c1_counterexample :
    subDispatch .N (.VFr ⟨3, .zero false⟩) (.VInt 5)
        (.VFr ⟨3, .reg (1 / 4)⟩) (some (.VInt (rndToInt .U))) =
      .ok ⟨3, .reg 5⟩ ∧
    subDispatch .N (.VFr ⟨3, .zero false⟩) (.VFr ⟨3, .reg (1 / 4)⟩)
        (.VInt 5) (some (.VInt (rndToInt .U))) =
      .ok ⟨3, .reg (-4)⟩ ∧
    (5 : ℚ) ≠ -(-4) := by
  have h1 : round 3 Rnd.U (19 / 4) = 5 := by
    have h := round_eval_pos 3 .U (19 / 4) 2 5 (by norm_num)
      (by norm_num) (by norm_num)
      (by
        norm_num [iround]
        exact ceil_eval (by norm_num) (by norm_num))
    norm_num at h
    exact h
  have h2 : round 3 Rnd.U (-(19 / 4)) = -4 := by
    have h := round_eq_of 3 .U (-(19 / 4)) 2 (-4) (by norm_num)
      (by rw [abs_of_neg (by norm_num : -((19 : ℚ) / 4) < 0)]; norm_num)
      (by rw [abs_of_neg (by norm_num : -((19 : ℚ) / 4) < 0)]; norm_num)
      (by
        norm_num [iround]
        exact ceil_eval (by norm_num) (by norm_num))
    norm_num at h
    exact h
  refine ⟨?_, ?_, by norm_num⟩
  · simp [subDispatch, fr_fn2, check_value, checkudata, luaIsnumber,
      luaTointegerx, opt_rnd, optInteger, rndToInt, rndOfInt, bind,
      Except.bind, pure, Except.pure, mpfr_si_sub, subVal, MpfrVal.negv,
      addVal, exactInt]
    norm_num [h1]
  · simp [subDispatch, fr_fn2, check_value, checkudata, luaIsnumber,
      luaTointegerx, opt_rnd, optInteger, rndToInt, rndOfInt, bind,
      Except.bind, pure, Except.pure, mpfr_sub_si, subVal, MpfrVal.negv,
      addVal, exactInt]
    norm_num [h2]

/-- C1 amended: mixed-type binary dispatch is value-transparent for
`add`: `add(d, h, n, r)` equals `add(d, h, hn, r)` whenever `hn` was set
from the machine integer `n` at a precision where `n` is representable —
for every rounding mode.  For `sub`, the sign identity
`sub(d, 5, h, r) = -sub(d, h, 5, r)` holds for regular `h` with
`5 - h ≠ 0` under the *sign-symmetric* rounding modes (RNDN, RNDZ,
RNDA); under RNDU/RNDD the two directed roundings differ (see the
counterexample), so the amendment restricts the sub part to
sign-symmetric modes. -/
theorem c1_amended (drnd : Rnd) :
    (∀ (d x c0 : Cell) (n : ℤ) (rs r : Rnd), isRep c0.prec (n : ℚ) →
      addDispatch drnd (.VFr d) (.VFr x) (.VFr (mpfr_set_si c0 n rs))
          (some (.VInt (rndToInt r))) =
        addDispatch drnd (.VFr d) (.VFr x) (.VInt n)
          (some (.VInt (rndToInt r)))) ∧
    (∀ (d : Cell) (hp : ℕ) (q : ℚ) (r : Rnd), signSym r → 5 - q ≠ 0 →
      subDispatch drnd (.VFr d) (.VInt 5) (.VFr ⟨hp, .reg q⟩)
          (some (.VInt (rndToInt r))) =
        .ok ⟨d.prec, .reg (-(round d.prec r (q - 5)))⟩ ∧
      subDispatch drnd (.VFr d) (.VFr ⟨hp, .reg q⟩) (.VInt 5)
          (some (.VInt (rndToInt r))) =
        .ok ⟨d.prec, .reg (round d.prec r (q - 5))⟩) := by
  constructor
  · intro d x c0 n rs r hrep
    have hval : (mpfr_set_si c0 n rs).val = exactInt n := by
      rcases eq_or_ne n 0 with h0 | h0
      · simp [mpfr_set_si, exactInt, h0, roundVal]
      · simp [mpfr_set_si, exactInt, h0, roundVal, round_exact _ rs hrep]
    simp [addDispatch, fr_fn2, check_value, checkudata, luaIsnumber,
      luaTointegerx, opt_rnd, optInteger, rndOfInt_rndToInt, bind,
      Except.bind, pure, Except.pure, mpfr_add, mpfr_add_si, hval,
      exactInt]
  · intro d hp q r hr hq
    have hq2 : q - 5 ≠ 0 := fun h => hq (by linarith)
    have hneg : round d.prec r (5 - q) = -round d.prec r (q - 5) := by
      have h := round_neg d.prec hr (q - 5)
      rw [neg_sub] at h
      exact h
    constructor
    · simp [subDispatch, fr_fn2, check_value, checkudata, luaIsnumber,
        luaTointegerx, opt_rnd, optInteger, rndOfInt_rndToInt, bind,
        Except.bind, pure, Except.pure, mpfr_si_sub, subVal,
        MpfrVal.negv, addVal, exactInt]
      rw [show (5 : ℚ) + -q = 5 - q from by ring]
      rw [if_neg hq, hneg]
    · simp [subDispatch, fr_fn2, check_value, checkudata, luaIsnumber,
        luaTointegerx, opt_rnd, optInteger, rndOfInt_rndToInt, bind,
        Except.bind, pure, Except.pure, mpfr_sub_si, subVal,
        MpfrVal.negv, addVal, exactInt]
      rw [show q + -5 = q - 5 from by ring]
      rw [if_neg hq2]

/-- C1 amended, witness: `d` of precision 3, `h = 1/4`, `n = 3`
representable at precision 4, `r = RNDN`. -/
theorem c1_amended_witness :
    (isRep (Cell.mk 4 (.zero false)).prec ((3 : ℤ) : ℚ) ∧
      signSym .N ∧ (5 : ℚ) - 1 / 4 ≠ 0) ∧
    (addDispatch .N (.VFr ⟨3, .zero false⟩) (.VFr ⟨3, .reg (1 / 4)⟩)
        (.VFr (mpfr_set_si ⟨4, .zero false⟩ 3 .Z))
        (some (.VInt (rndToInt .N))) =
      addDispatch .N (.VFr ⟨3, .zero false⟩) (.VFr ⟨3, .reg (1 / 4)⟩)
        (.VInt 3) (some (.VInt (rndToInt .N)))) ∧
    (subDispatch .N (.VFr ⟨3, .zero false⟩) (.VInt 5)
        (.VFr ⟨3, .reg (1 / 4)⟩) (some (.VInt (rndToInt .N))) =
      .ok ⟨3, .reg (-(round 3 .N (1 / 4 - 5)))⟩ ∧
    subDispatch .N (.VFr ⟨3, .zero false⟩) (.VFr ⟨3, .reg (1 / 4)⟩)
        (.VInt 5) (some (.VInt (rndToInt .N))) =
      .ok ⟨3, .reg (round 3 .N (1 / 4 - 5))⟩) := by
  have hrep : isRep (Cell.mk 4 (.zero false)).prec ((3 : ℤ) : ℚ) :=
    ⟨3, 0, by norm_num, by norm_num⟩
  have hsym : signSym .N := trivial
  have hne : (5 : ℚ) - 1 / 4 ≠ 0 := by norm_num
  refine ⟨⟨hrep, hsym, hne⟩, ?_, ?_⟩
  · exact (c1_amended .N).1 ⟨3, .zero false⟩ ⟨3, .reg (1 / 4)⟩
      ⟨4, .zero false⟩ 3 .Z .N hrep
  · exact (c1_amended .N).2 ⟨3, .zero false⟩ 3 (1 / 4) .N hsym hne

/-! ### Claim C8 -/

/-- C8: `pow(z, 2, 10, r)` with both operands machine integers dispatches
to `mpfr_ui_pow_ui` and stores exactly `1024 = 2^10` — representable at
any precision ≥ 1, hence independent of the rounding mode — and
`pow(z, b, -3, r)` with a handle base and negative integer exponent
passes the signed lower-bound check and dispatches to `mpfr_pow_si`,
storing the correctly rounded reciprocal cube of `b`.  The theorem is
stated for arbitrary engine closures in the untouched handle-exponent
branches. -/
theorem c8_pow_integer_operands :
    (∀ (uiP : Cell → ℕ → MpfrVal → Rnd → Cell)
        (powF : Cell → MpfrVal → MpfrVal → Rnd → Cell)
        (drnd : Rnd) (z : Cell) (r : Rnd), 1 ≤ z.prec →
      fr_pow uiP powF drnd (.VFr z) (.VInt 2) (.VInt 10)
          (some (.VInt (rndToInt r))) =
        .ok ⟨z.prec, .reg 1024⟩) ∧
    (∀ (uiP : Cell → ℕ → MpfrVal → Rnd → Cell)
        (powF : Cell → MpfrVal → MpfrVal → Rnd → Cell)
        (drnd : Rnd) (z x : Cell) (q : ℚ) (r : Rnd),
      x.val = .reg q → q ≠ 0 →
      fr_pow uiP powF drnd (.VFr z) (.VFr x) (.VInt (-3))
          (some (.VInt (rndToInt r))) =
        .ok ⟨z.prec, .reg (round z.prec r (1 / q ^ 3))⟩) := by
  constructor
  · intro uiP powF drnd z r hz
    have h1024 : round z.prec r ((2 : ℚ) ^ 10) = 2 ^ 10 :=
      round_intPow2 z.prec r 10 hz
    simp [fr_pow, checkudata, luaIsnumber, luaTointegerx, opt_rnd,
      optInteger, rndOfInt_rndToInt, ULONG_MAX, bind, Except.bind, pure,
      Except.pure, mpfr_ui_pow_ui]
    norm_num at h1024
    norm_num [h1024]
  · intro uiP powF drnd z x q r hx hq
    have hzp : q ^ (-3 : ℤ) = 1 / q ^ 3 := by
      rw [zpow_neg, one_div]
      congr 1
      exact zpow_ofNat q 3
    simp [fr_pow, checkudata, luaIsnumber, luaTointegerx, opt_rnd,
      optInteger, rndOfInt_rndToInt, LONG_MIN, bind, Except.bind, pure,
      Except.pure, mpfr_pow_si, powSiVal, hx, hq, hzp]

/-- C8 witness: `z` of precision 5, base handle `b = 2`, `r = RNDN`. -/
theorem c8_pow_integer_operands_witness :
    (1 ≤ (Cell.mk 5 (.zero false)).prec ∧
      (Cell.mk 5 (.reg 2)).val = .reg 2 ∧ (2 : ℚ) ≠ 0) ∧
    fr_pow (fun z _ _ _ => z) (fun z _ _ _ => z) .N
        (.VFr ⟨5, .zero false⟩) (.VInt 2) (.VInt 10)
        (some (.VInt (rndToInt .N))) =
      .ok ⟨5, .reg 1024⟩ ∧
    fr_pow (fun z _ _ _ => z) (fun z _ _ _ => z) .N
        (.VFr ⟨5, .zero false⟩) (.VFr ⟨5, .reg 2⟩) (.VInt (-3))
        (some (.VInt (rndToInt .N))) =
      .ok ⟨5, .reg (round 5 .N (1 / (2 : ℚ) ^ 3))⟩ := by
  refine ⟨⟨by norm_num, rfl, by norm_num⟩, ?_, ?_⟩
  · exact c8_pow_integer_operands.1 (fun z _ _ _ => z) (fun z _ _ _ => z)
      .N ⟨5, .zero false⟩ .N (by norm_num)
  · exact c8_pow_integer_operands.2 (fun z _ _ _ => z) (fun z _ _ _ => z)
      .N ⟨5, .zero false⟩ ⟨5, .reg 2⟩ 2 .N rfl (by norm_num)

/-! ### Claim C9 -/

/-- C9 counterexample: the claim says any host numeric value that
round-trips exactly through machine-integer conversion selects the
integer variant.  The code tests `lua_isinteger`, which is false for the
float `4.0` even though `lua_tointegerx` converts it exactly to 4; the
float falls through to `luaL_checkudata` and raises a type error instead
of selecting `mpfr_sqrt_ui`. -/
theorem c9_counterexample :
    fr_fn1u mpfr_sqrt mpfr_sqrt_ui .N (.VFr ⟨8, .zero false⟩)
        (.VNum 4) none = .error ⟨2, "mpfr_t expected"⟩ ∧
    luaTointegerx (.VNum 4) = some 4 := by
  constructor
  · simp [fr_fn1u, checkudata, luaIsinteger, opt_rnd, optInteger, bind,
      Except.bind, pure, Except.pure]
  · simp [luaTointegerx]

/-- C9 amended: for the unary-with-integer-alternative operations (the
`sqrt`/`zeta` pairs registered through `fr_fn1u`, here arbitrary engine
closures), the integer-argument variant is selected exactly when the
second argument is a machine integer *by host subtype* (a Lua integer)
in `[0, ULONG_MAX]`, with a range error naming argument 2 outside that
interval; a Value Handle selects the handle variant; a native float —
even one that round-trips exactly through integer conversion — is
rejected with a type error at argument 2. -/
theorem c9_amended (fnFr : Cell → MpfrVal → Rnd → Cell)
    (fnUi : Cell → ℕ → Rnd → Cell) (drnd : Rnd) (z : Cell) (r : Rnd) :
    (∀ n : ℤ, 0 ≤ n → n ≤ ULONG_MAX →
      fr_fn1u fnFr fnUi drnd (.VFr z) (.VInt n)
          (some (.VInt (rndToInt r))) = .ok (fnUi z n.toNat r)) ∧
    (∀ n : ℤ, ¬(0 ≤ n ∧ n ≤ ULONG_MAX) →
      fr_fn1u fnFr fnUi drnd (.VFr z) (.VInt n)
          (some (.VInt (rndToInt r))) =
        .error ⟨2, "out of range of unsigned long"⟩) ∧
    (∀ x : Cell,
      fr_fn1u fnFr fnUi drnd (.VFr z) (.VFr x)
          (some (.VInt (rndToInt r))) = .ok (fnFr z x.val r)) ∧
    (∀ q : ℚ,
      fr_fn1u fnFr fnUi drnd (.VFr z) (.VNum q)
          (some (.VInt (rndToInt r))) =
        .error ⟨2, "mpfr_t expected"⟩) := by
  refine ⟨?_, ?_, ?_, ?_⟩
  · intro n h0 h1
    simp [fr_fn1u, checkudata, luaIsinteger, luaIsnumber, luaTointeger,
      luaTointegerx, opt_rnd, optInteger, rndOfInt_rndToInt, bind,
      Except.bind, pure, Except.pure, h0, h1]
  · intro n hn
    simp [fr_fn1u, checkudata, luaIsinteger, luaIsnumber, luaTointeger,
      luaTointegerx, opt_rnd, optInteger, rndOfInt_rndToInt, bind,
      Except.bind, pure, Except.pure, hn]
  · intro x
    simp [fr_fn1u, checkudata, luaIsinteger, luaIsnumber, luaTointegerx,
      opt_rnd, optInteger, rndOfInt_rndToInt, bind, Except.bind, pure,
      Except.pure]
  · intro q
    simp [fr_fn1u, checkudata, luaIsinteger, luaIsnumber, luaTointegerx,
      opt_rnd, optInteger, rndOfInt_rndToInt, bind, Except.bind, pure,
      Except.pure]

/-- C9 amended, witness: the registered `sqrt` pair at `n = 4`,
`x = 9/4`, precision 8, `r = RNDN`. -/
theorem c9_amended_witness :
    ((0 : ℤ) ≤ 4 ∧ (4 : ℤ) ≤ ULONG_MAX ∧
      ¬((0 : ℤ) ≤ -1 ∧ (-1 : ℤ) ≤ ULONG_MAX)) ∧
    fr_fn1u mpfr_sqrt mpfr_sqrt_ui .N (.VFr ⟨8, .zero false⟩)
        (.VInt 4) (some (.VInt (rndToInt .N))) =
      .ok (mpfr_sqrt_ui ⟨8, .zero false⟩ (4 : ℤ).toNat .N) ∧
    fr_fn1u mpfr_sqrt mpfr_sqrt_ui .N (.VFr ⟨8, .zero false⟩)
        (.VInt (-1)) (some (.VInt (rndToInt .N))) =
      .error ⟨2, "out of range of unsigned long"⟩ ∧
    fr_fn1u mpfr_sqrt mpfr_sqrt_ui .N (.VFr ⟨8, .zero false⟩)
        (.VFr ⟨8, .reg (9 / 4)⟩) (some (.VInt (rndToInt .N))) =
      .ok (mpfr_sqrt ⟨8, .zero false⟩ (Cell.mk 8 (.reg (9 / 4))).val .N) ∧
    fr_fn1u mpfr_sqrt mpfr_sqrt_ui .N (.VFr ⟨8, .zero false⟩)
        (.VNum (9 / 4)) (some (.VInt (rndToInt .N))) =
      .error ⟨2, "mpfr_t expected"⟩ := by
  have h1 : (0 : ℤ) ≤ 4 := by norm_num
  have h2 : (4 : ℤ) ≤ ULONG_MAX := by norm_num [ULONG_MAX]
  have h3 : ¬((0 : ℤ) ≤ -1 ∧ (-1 : ℤ) ≤ ULONG_MAX) := by
    intro h
    exact absurd h.1 (by norm_num)
  refine ⟨⟨h1, h2, h3⟩, ?_, ?_, ?_, ?_⟩
  · exact (c9_amended mpfr_sqrt mpfr_sqrt_ui .N ⟨8, .zero false⟩ .N).1
      4 h1 h2
  · exact (c9_amended mpfr_sqrt mpfr_sqrt_ui .N ⟨8, .zero false⟩ .N).2.1
      (-1) h3
  · exact (c9_amended mpfr_sqrt mpfr_sqrt_ui .N ⟨8, .zero false⟩
      .N).2.2.1 ⟨8, .reg (9 / 4)⟩
  · exact (c9_amended mpfr_sqrt mpfr_sqrt_ui .N ⟨8, .zero false⟩
      .N).2.2.2 (9 / 4)

/-! ### Claim C10 -/

theorem toList_mk (l : List Char) : (String.mk l).toList = l := rfl

theorem digitChar_ne_minus : ∀ b < 63, ∀ d < 62, digitChar b d ≠ '-' := by
  decide

/-- The digit-and-exponent pair produced by `mpfr_get_str` on a regular
value: the digit integer is nonzero and carries the sign of the value. -/
theorem getStrDigits_spec (b n : ℕ) (r : Rnd) (q : ℚ) (D F : ℤ)
    (hb : 2 ≤ b) (hn : 1 ≤ n) (hq : q ≠ 0)
    (hDF : getStrDigits b n r q = (D, F)) :
    D ≠ 0 ∧ (D < 0 ↔ q < 0) := by
  have hb1 : (1 : ℕ) < b := hb
  have habs : 0 < |q| := abs_pos.mpr hq
  have hbQ : (0 : ℚ) < (b : ℚ) := by
    have hb0 : 0 < b := by omega
    exact_mod_cast hb0
  have hbQ1 : (1 : ℚ) ≤ (b : ℚ) := by exact_mod_cast le_of_lt hb1
  set F0 : ℤ := Int.log b |q| + 1 with hF0
  set m : ℚ := q * (b : ℚ) ^ ((n : ℤ) - F0) with hm
  have hscale : (0 : ℚ) < (b : ℚ) ^ ((n : ℤ) - F0) := zpow_pos hbQ _
  have hlow : ((b : ℕ) : ℚ) ^ (F0 - 1) ≤ |q| := by
    have h := Int.zpow_log_le_self (b := b) (r := |q|) hb1 habs
    rw [hF0]
    simpa using h
  have hge : 1 ≤ |m| := by
    have hmabs : |m| = |q| * (b : ℚ) ^ ((n : ℤ) - F0) := by
      rw [hm, abs_mul, abs_of_pos hscale]
    have hstep : (b : ℚ) ^ (F0 - 1) * (b : ℚ) ^ ((n : ℤ) - F0) ≤
        |q| * (b : ℚ) ^ ((n : ℤ) - F0) :=
      mul_le_mul_of_nonneg_right hlow (le_of_lt hscale)
    have hcomb : (b : ℚ) ^ (F0 - 1) * (b : ℚ) ^ ((n : ℤ) - F0) =
        (b : ℚ) ^ ((n : ℤ) - 1) := by
      rw [← zpow_add₀ (ne_of_gt hbQ)]
      congr 1
      ring
    have hone : (1 : ℚ) ≤ (b : ℚ) ^ ((n : ℤ) - 1) := by
      have h0 : (0 : ℤ) ≤ (n : ℤ) - 1 := by omega
      calc (1 : ℚ) = (b : ℚ) ^ (0 : ℤ) := by norm_num
        _ ≤ (b : ℚ) ^ ((n : ℤ) - 1) := zpow_le_zpow_right₀ hbQ1 h0
    rw [hmabs]
    calc (1 : ℚ) ≤ (b : ℚ) ^ ((n : ℤ) - 1) := hone
      _ = (b : ℚ) ^ (F0 - 1) * (b : ℚ) ^ ((n : ℤ) - F0) := hcomb.symm
      _ ≤ |q| * (b : ℚ) ^ ((n : ℤ) - F0) := hstep
  have hbZ : (0 : ℤ) < (b : ℤ) ^ (n - 1) := by positivity
  rcases lt_or_gt_of_ne hq with hneg | hpos
  · have hm0 : m < 0 := by
      rw [hm]
      exact mul_neg_of_neg_of_pos hneg hscale
    have hm1 : m ≤ -1 := by
      rw [abs_of_neg hm0] at hge
      linarith
    have hD0 : iround r m ≤ -1 := by
      calc iround r m ≤ ⌈m⌉ := iround_le_ceil r m
        _ ≤ -1 := Int.ceil_le.mpr (by exact_mod_cast hm1)
    simp only [getStrDigits] at hDF
    rw [← hF0, ← hm] at hDF
    split at hDF
    · injection hDF with hD hF
      have hDe : D = -((b : ℤ) ^ (n - 1)) := by
        rw [← hD, if_pos (by omega)]
      refine ⟨by omega, ?_, ?_⟩
      · intro _
        exact hneg
      · intro _
        omega
    · injection hDF with hD hF
      refine ⟨by omega, ?_, ?_⟩
      · intro _
        exact hneg
      · intro _
        omega
  · have hm0 : 0 < m := by
      rw [hm]
      exact mul_pos hpos hscale
    have hm1 : 1 ≤ m := by
      rw [abs_of_pos hm0] at hge
      linarith
    have hD0 : 1 ≤ iround r m := by
      calc (1 : ℤ) ≤ ⌊m⌋ := Int.le_floor.mpr (by exact_mod_cast hm1)
        _ ≤ iround r m := floor_le_iround r m
    simp only [getStrDigits] at hDF
    rw [← hF0, ← hm] at hDF
    split at hDF
    · injection hDF with hD hF
      have hDe : D = (b : ℤ) ^ (n - 1) := by
        rw [← hD, if_neg (by omega)]
      refine ⟨by omega, ?_, ?_⟩
      · intro h
        omega
      · intro h
        exact absurd hpos (by linarith)
    · injection hDF with hD hF
      refine ⟨by omega, ?_, ?_⟩
      · intro h
        omega
      · intro h
        exact absurd hpos (by linarith)

/-- C10: for every regular nonzero value, base in [2, 62], digit count
and rounding mode, `tostring` returns the minus sign (exactly when the
value is negative) followed by the first digit, a decimal point, the
remaining digits, and — exactly when the decimal exponent minus one is
nonzero — an exponent marker, `@` for bases above 10 and `e` otherwise,
followed by the signed adjusted exponent. -/
theorem c10_tostring_format (drnd r : Rnd) (p : ℕ) (q : ℚ) (b n : ℤ)
    (hq : q ≠ 0) (hb : 2 ≤ b ∧ b ≤ 62) (hn : 0 ≤ n ∧ n < 2 ^ 63) :
    ∃ (D F : ℤ) (d0 : Char) (rest : List Char),
      getStrDigits b.toNat
          (if n.toNat = 0 then 1 + Nat.clog b.toNat (2 ^ p) else n.toNat)
          r q = (D, F) ∧
      D ≠ 0 ∧ (D < 0 ↔ q < 0) ∧
      (Nat.digits b.toNat D.natAbs).reverse.map (digitChar b.toNat) =
        d0 :: rest ∧
      fr_tostring drnd ⟨p, .reg q⟩ (some (.VInt b)) (some (.VInt n))
          (some (.VInt (rndToInt r))) =
        .ok (String.mk
          ((if q < 0 then ['-'] else []) ++ d0 :: '.' :: rest ++
            (if F - 1 ≠ 0 then
              (if 10 < b then '@' else 'e') ::
                (intDecString (F - 1)).toList
            else []))) := by
  set n1 : ℕ :=
    if n.toNat = 0 then 1 + Nat.clog b.toNat (2 ^ p) else n.toNat with hn1
  obtain ⟨D, F, hDF⟩ : ∃ D F, getStrDigits b.toNat n1 r q = (D, F) :=
    ⟨_, _, rfl⟩
  have hn1pos : 1 ≤ n1 := by
    rw [hn1]
    split <;> omega
  have hbt : 2 ≤ b.toNat := by omega
  obtain ⟨hD0, hsign⟩ :=
    getStrDigits_spec b.toNat n1 r q D F hbt hn1pos hq hDF
  have hnil : Nat.digits b.toNat D.natAbs ≠ [] :=
    Nat.digits_ne_nil_iff_ne_zero.mpr (by omega)
  have hmapnil :
      (Nat.digits b.toNat D.natAbs).reverse.map (digitChar b.toNat) ≠
        [] := by
    simp [hnil]
  obtain ⟨d0, rest, hds⟩ := List.exists_cons_of_ne_nil hmapnil
  have hd0 : d0 ≠ '-' := by
    have hmem : d0 ∈ (Nat.digits b.toNat D.natAbs).reverse.map
        (digitChar b.toNat) := by
      rw [hds]
      exact List.mem_cons_self _ _
    obtain ⟨dd, hdmem, hdeq⟩ := List.mem_map.mp hmem
    have hdlt : dd < b.toNat :=
      Nat.digits_lt_base (by omega) (List.mem_reverse.mp hdmem)
    rw [← hdeq]
    exact digitChar_ne_minus b.toNat (by omega) dd (by omega)
  refine ⟨D, F, d0, rest, hDF, hD0, hsign, hds, ?_⟩
  have hmod : n % 18446744073709551616 = n :=
    Int.emod_eq_of_lt hn.1 (by omega)
  have hgs : mpfr_get_str b.toNat n.toNat r p q =
      (if D < 0 then
        String.mk ('-' ::
          (Nat.digits b.toNat D.natAbs).reverse.map (digitChar b.toNat))
      else
        String.mk
          ((Nat.digits b.toNat D.natAbs).reverse.map (digitChar b.toNat)),
        F) := by
    simp only [mpfr_get_str, ← hn1, hDF]
  rw [hds] at hgs
  by_cases hqneg : q < 0
  · have hDneg : D < 0 := hsign.mpr hqneg
    rw [if_pos hDneg] at hgs
    simp [fr_tostring, opt_base, opt_rnd, optInteger, luaIsnumber,
      luaTointegerx, rndOfInt_rndToInt, bind, Except.bind, pure,
      Except.pure, numberP, zeroP, hb.1, hb.2, hq, hmod, hgs, toList_mk,
      hqneg]
  · have hDpos : ¬D < 0 := fun h => hqneg (hsign.mp h)
    rw [if_neg hDpos] at hgs
    simp [fr_tostring, opt_base, opt_rnd, optInteger, luaIsnumber,
      luaTointegerx, rndOfInt_rndToInt, bind, Except.bind, pure,
      Except.pure, numberP, zeroP, hb.1, hb.2, hq, hmod, hgs, toList_mk,
      hqneg, hd0]

/-- C10 witness: `q = 5/2` at precision 4, base 10, three digits,
nearest rounding. -/
theorem c10_tostring_format_witness :
    ((5 : ℚ) / 2 ≠ 0 ∧ ((2 : ℤ) ≤ 10 ∧ (10 : ℤ) ≤ 62) ∧
      ((0 : ℤ) ≤ 3 ∧ (3 : ℤ) < 2 ^ 63)) ∧
    (∃ (D F : ℤ) (d0 : Char) (rest : List Char),
      getStrDigits (10 : ℤ).toNat
          (if (3 : ℤ).toNat = 0 then
            1 + Nat.clog (10 : ℤ).toNat (2 ^ 4)
          else (3 : ℤ).toNat) .N (5 / 2) = (D, F) ∧
      D ≠ 0 ∧ (D < 0 ↔ (5 : ℚ) / 2 < 0) ∧
      (Nat.digits (10 : ℤ).toNat D.natAbs).reverse.map
          (digitChar (10 : ℤ).toNat) = d0 :: rest ∧
      fr_tostring .N ⟨4, .reg (5 / 2)⟩ (some (.VInt 10)) (some (.VInt 3))
          (some (.VInt (rndToInt .N))) =
        .ok (String.mk
          ((if (5 : ℚ) / 2 < 0 then ['-'] else []) ++
            d0 :: '.' :: rest ++
            (if F - 1 ≠ 0 then
              (if 10 < (10 : ℤ) then '@' else 'e') ::
                (intDecString (F - 1)).toList
            else [])))) := by
  refine ⟨⟨by norm_num, ⟨by norm_num, by norm_num⟩,
    ⟨by norm_num, by norm_num⟩⟩, ?_⟩
  exact c10_tostring_format .N .N 4 (5 / 2) 10 3 (by norm_num)
    ⟨by norm_num, by norm_num⟩ ⟨by norm_num, by norm_num⟩

/-! ### Machinery for the round-trip claim

The round-trip theorem is the classical digit-sufficiency result: with
`n = 1 + ⌈p·log 2/log b⌉` significant digits (so `b^(n-1) ≥ 2^p`),
rendering a `p`-bit value at nearest and re-reading at nearest recovers
it exactly.  It is proved here, not assumed. -/

theorem inearest_err (m : ℚ) : |(inearest m : ℚ) - m| ≤ 1 / 2 := by
  have h0 : 0 ≤ Int.fract m := Int.fract_nonneg m
  have h1 : Int.fract m < 1 := Int.fract_lt_one m
  have hfl : (⌊m⌋ : ℚ) = m - Int.fract m := by
    have h := Int.self_sub_floor m
    linarith
  unfold inearest
  split
  · rw [hfl, abs_le]
    constructor <;> linarith
  · split
    · push_cast
      rw [hfl, abs_le]
      constructor <;> linarith
    · have htie : Int.fract m = 1 / 2 := by
        rcases lt_trichotomy (Int.fract m) (1 / 2) with h | h | h
        · exact absurd h (by assumption)
        · exact h
        · exact absurd h (by assumption)
      split
      · rw [hfl, abs_le, htie]
        constructor <;> linarith
      · push_cast
        rw [hfl, abs_le, htie]
        constructor <;> linarith

theorem inearest_of_close {m : ℚ} {z : ℤ} (h : |m - (z : ℚ)| < 1 / 2) :
    inearest m = z := by
  rw [abs_lt] at h
  rcases le_or_lt (z : ℚ) m with hle | hlt
  · exact inearest_eval_lo hle (by linarith [h.2])
  · exact inearest_eval_hi (by linarith [h.1]) (le_of_lt hlt)

theorem log2_mul_zpow (q : ℚ) (hq : q ≠ 0) (k : ℤ) :
    Int.log 2 |q * 2 ^ k| = Int.log 2 |q| + k := by
  have h2 : (0 : ℚ) < 2 := by norm_num
  have h20 : ((2 : ℕ) : ℚ) = 2 := by norm_num
  have habs : |q * (2 : ℚ) ^ k| = |q| * 2 ^ k := by
    rw [abs_mul, abs_of_pos (zpow_pos h2 k)]
  have hl := Int.zpow_log_le_self (b := 2) (r := |q|) (by norm_num)
    (abs_pos.mpr hq)
  have hu := Int.lt_zpow_succ_log_self (b := 2) (r := |q|) (by norm_num)
  apply log2_abs_eq
  · rw [habs, h20, zpow_add₀ (ne_of_gt h2)]
    rw [h20] at hl
    exact mul_le_mul_of_nonneg_right hl (le_of_lt (zpow_pos h2 k))
  · rw [habs, h20]
    have he : Int.log 2 |q| + k + 1 = Int.log 2 |q| + 1 + k := by ring
    rw [he, zpow_add₀ (ne_of_gt h2)]
    rw [h20] at hu
    exact mul_lt_mul_of_pos_right hu (zpow_pos h2 k)

theorem round_scale (p : ℕ) (r : Rnd) (q : ℚ) (k : ℤ) :
    round p r (q * 2 ^ k) = round p r q * 2 ^ k := by
  rcases eq_or_ne q 0 with h0 | h0
  · simp [round, h0]
  · have h2 : (0 : ℚ) < 2 := by norm_num
    have hqk : q * (2 : ℚ) ^ k ≠ 0 :=
      mul_ne_zero h0 (ne_of_gt (zpow_pos h2 k))
    unfold round
    rw [if_neg hqk, if_neg h0, log2_mul_zpow q h0 k]
    have e1 : (p : ℤ) - 1 - (Int.log 2 |q| + k) =
        (p : ℤ) - 1 - Int.log 2 |q| - k := by ring
    have e2 : Int.log 2 |q| + k + 1 - (p : ℤ) =
        Int.log 2 |q| + 1 - (p : ℤ) + k := by ring
    rw [e1, e2]
    have e3 : q * (2 : ℚ) ^ k * 2 ^ ((p : ℤ) - 1 - Int.log 2 |q| - k) =
        q * 2 ^ ((p : ℤ) - 1 - Int.log 2 |q|) := by
      rw [mul_assoc, ← zpow_add₀ (ne_of_gt h2)]
      congr 2
      ring
    rw [e3, zpow_add₀ (ne_of_gt h2), ← mul_assoc]

theorem isRep_neg (p : ℕ) {q : ℚ} (h : isRep p q) : isRep p (-q) := by
  obtain ⟨m, e, hm, hq⟩ := h
  exact ⟨-m, e, by simpa using hm, by rw [hq]; push_cast; ring⟩

/-- Normal form of a nonzero representable value: a full-width
significand. -/
theorem isRep_canon (p : ℕ) (hp : 1 ≤ p) {q : ℚ} (hq : q ≠ 0)
    (h : isRep p q) :
    ∃ M E : ℤ, 2 ^ (p - 1) ≤ M.natAbs ∧ M.natAbs < 2 ^ p ∧
      q = (M : ℚ) * 2 ^ E := by
  obtain ⟨m, e, hm, hqe⟩ := h
  have hm0 : m ≠ 0 := by
    intro h0
    rw [h0] at hqe
    simp at hqe
    exact hq hqe
  have hma : m.natAbs ≠ 0 := Int.natAbs_ne_zero.mpr hm0
  set L := Nat.log 2 m.natAbs with hL
  have hL1 : 2 ^ L ≤ m.natAbs :=
    Nat.pow_log_le_self 2 hma
  have hL2 : m.natAbs < 2 ^ (L + 1) :=
    Nat.lt_pow_succ_log_self (by norm_num) _
  have hmp : m.natAbs < 2 ^ p := by
    have habs : |m| = (m.natAbs : ℤ) := Int.abs_eq_natAbs m
    have h2 : ((2 ^ p : ℕ) : ℤ) = (2 : ℤ) ^ p := by push_cast; rfl
    omega
  have hLp : L < p := by
    have h1 : (2 : ℕ) ^ L < 2 ^ p := lt_of_le_of_lt hL1 hmp
    exact (Nat.pow_lt_pow_iff_right (by norm_num)).mp h1
  set t : ℕ := p - 1 - L with ht
  refine ⟨m * 2 ^ t, e - t, ?_, ?_, ?_⟩
  · rw [Int.natAbs_mul]
    have h2t : ((2 : ℤ) ^ t).natAbs = 2 ^ t := by
      rw [Int.natAbs_pow]
      rfl
    rw [h2t]
    calc 2 ^ (p - 1) = 2 ^ L * 2 ^ t := by
          rw [← pow_add]
          congr 1
          omega
      _ ≤ m.natAbs * 2 ^ t :=
          Nat.mul_le_mul_right _ hL1
  · rw [Int.natAbs_mul]
    have h2t : ((2 : ℤ) ^ t).natAbs = 2 ^ t := by
      rw [Int.natAbs_pow]
      rfl
    rw [h2t]
    calc m.natAbs * 2 ^ t < 2 ^ (L + 1) * 2 ^ t :=
          mul_lt_mul_of_pos_right hL2 (Nat.pos_pow_of_pos t (by norm_num))
      _ = 2 ^ p := by
          rw [← pow_add]
          congr 1
          omega
  · rw [hqe]
    push_cast
    rw [mul_assoc, ← zpow_natCast (2 : ℚ) t, ← zpow_add₀ (by norm_num : (2 : ℚ) ≠ 0)]
    congr 2
    ring

/-- Kernel of the round-trip theorem, scaled to exponent zero: a value
within `M/(2(2^p+1))` of a full-width `p`-bit integer significand `M`
rounds back to `M` at nearest. -/
theorem roundN_near_int (p : ℕ) (hp : 1 ≤ p) (M : ℤ) (w : ℚ)
    (hM1 : (2 : ℤ) ^ (p - 1) ≤ M) (hM2 : M < 2 ^ p)
    (herr : |w - (M : ℚ)| ≤ (M : ℚ) / (2 * (2 ^ p + 1))) :
    round p .N w = M := by
  have h20 : ((2 : ℕ) : ℚ) = (2 : ℚ) := by norm_num
  have hex1 : (p : ℤ) - 1 = ((p - 1 : ℕ) : ℤ) := by omega
  have hzp1 : (2 : ℚ) ^ ((p : ℤ) - 1) = (2 : ℚ) ^ (p - 1 : ℕ) := by
    rw [hex1, zpow_natCast]
  have hzp0 : (2 : ℚ) ^ ((p : ℤ)) = (2 : ℚ) ^ (p : ℕ) := by
    rw [zpow_natCast]
  have hMQ1 : (2 : ℚ) ^ ((p : ℤ) - 1) ≤ (M : ℚ) := by
    rw [hzp1]
    exact_mod_cast hM1
  have hMQ2 : (M : ℚ) ≤ (2 : ℚ) ^ ((p : ℤ)) - 1 := by
    rw [hzp0]
    have h := hM2
    have h1 : M ≤ 2 ^ p - 1 := by omega
    have h2 : ((2 ^ p - 1 : ℤ) : ℚ) = (2 : ℚ) ^ (p : ℕ) - 1 := by
      push_cast
      ring
    calc (M : ℚ) ≤ ((2 ^ p - 1 : ℤ) : ℚ) := by exact_mod_cast h1
      _ = _ := h2
  have hA1 : (1 : ℚ) ≤ (2 : ℚ) ^ ((p : ℤ) - 1) := by
    apply one_le_zpow₀ (by norm_num)
    omega
  have hApos : (0 : ℚ) < (2 : ℚ) ^ ((p : ℤ) - 1) := by positivity
  have hMpos : (0 : ℚ) < (M : ℚ) := lt_of_lt_of_le hApos hMQ1
  have h2p : (2 : ℚ) ^ ((p : ℤ)) = 2 * (2 : ℚ) ^ ((p : ℤ) - 1) := by
    rw [show (p : ℤ) = ((p : ℤ) - 1) + 1 from by ring,
      zpow_add₀ (by norm_num : (2 : ℚ) ≠ 0)]
    ring_nf
  have hden : (0 : ℚ) < 2 * ((2 : ℚ) ^ (p : ℕ) + 1) := by positivity
  have herr2 : |w - (M : ℚ)| < 1 / 2 := by
    have hb1 : (M : ℚ) / (2 * (2 ^ (p : ℕ) + 1)) < 1 / 2 := by
      rw [div_lt_iff₀ hden]
      have : (M : ℚ) ≤ (2 : ℚ) ^ (p : ℕ) - 1 := by
        rw [← hzp0]
        exact hMQ2
      linarith
    exact lt_of_le_of_lt herr hb1
  have habs := abs_lt.mp herr2
  rcases lt_or_eq_of_le hM1 with hlt | heq
  · -- full case: `M ≥ 2^(p-1) + 1`
    have hMQlt : (2 : ℚ) ^ ((p : ℤ) - 1) + 1 ≤ (M : ℚ) := by
      rw [hzp1]
      have h1 : (2 : ℤ) ^ (p - 1) + 1 ≤ M := hlt
      exact_mod_cast h1
    have hwlo : (2 : ℚ) ^ ((p : ℤ) - 1) ≤ w := by linarith [habs.1]
    have hwhi : w < (2 : ℚ) ^ ((p : ℤ) - 1 + 1) := by
      have he : (2 : ℚ) ^ ((p : ℤ) - 1 + 1) = (2 : ℚ) ^ ((p : ℤ)) := by
        congr 1
        ring
      rw [he, h2p]
      have := habs.2
      linarith
    have hw0 : 0 < w := lt_of_lt_of_le hApos hwlo
    have h := round_eq_of p .N w ((p : ℤ) - 1) M (ne_of_gt hw0)
      (by rw [h20, abs_of_pos hw0]; exact hwlo)
      (by rw [h20, abs_of_pos hw0]; exact hwhi)
      (by
        rw [show (p : ℤ) - 1 - ((p : ℤ) - 1) = 0 from by ring, zpow_zero,
          mul_one]
        exact inearest_of_close herr2)
    rw [h, show (p : ℤ) - 1 + 1 - (p : ℤ) = 0 from by ring, zpow_zero,
      mul_one]
  · -- binade bottom: `M = 2^(p-1)`
    have hMeq : (M : ℚ) = (2 : ℚ) ^ ((p : ℤ) - 1) := by
      rw [hzp1]
      exact_mod_cast heq.symm
    have herr4 : |w - (M : ℚ)| < 1 / 4 := by
      have hb1 : (M : ℚ) / (2 * (2 ^ (p : ℕ) + 1)) < 1 / 4 := by
        rw [div_lt_iff₀ hden]
        have h1 : (4 : ℚ) * (M : ℚ) < 2 * (2 ^ (p : ℕ) + 1) := by
          rw [hMeq, ← hzp0, h2p]
          linarith
        linarith
      exact lt_of_le_of_lt herr hb1
    have habs4 := abs_lt.mp herr4
    rcases le_or_lt (M : ℚ) w with hwM | hwM
    · -- at or above the binade bottom
      have hwlo : (2 : ℚ) ^ ((p : ℤ) - 1) ≤ w := by
        rw [← hMeq]
        exact hwM
      have hwhi : w < (2 : ℚ) ^ ((p : ℤ) - 1 + 1) := by
        have he : (2 : ℚ) ^ ((p : ℤ) - 1 + 1) = (2 : ℚ) ^ ((p : ℤ)) := by
          congr 1
          ring
        rw [he, h2p]
        have := habs4.2
        rw [hMeq] at this
        linarith
      have hw0 : 0 < w := lt_of_lt_of_le hApos hwlo
      have h := round_eq_of p .N w ((p : ℤ) - 1) M (ne_of_gt hw0)
        (by rw [h20, abs_of_pos hw0]; exact hwlo)
        (by rw [h20, abs_of_pos hw0]; exact hwhi)
        (by
          rw [show (p : ℤ) - 1 - ((p : ℤ) - 1) = 0 from by ring, zpow_zero,
            mul_one]
          exact inearest_of_close herr2)
      rw [h, show (p : ℤ) - 1 + 1 - (p : ℤ) = 0 from by ring, zpow_zero,
        mul_one]
    · -- just below the binade bottom
      have hB : (2 : ℚ) ^ ((p : ℤ) - 1) = 2 * (2 : ℚ) ^ ((p : ℤ) - 2) := by
        rw [show (p : ℤ) - 1 = ((p : ℤ) - 2) + 1 from by ring,
          zpow_add₀ (by norm_num : (2 : ℚ) ≠ 0)]
        ring
      have hBq : (1 : ℚ) / 2 ≤ (2 : ℚ) ^ ((p : ℤ) - 2) := by
        have h1 : (2 : ℚ) ^ (-1 : ℤ) ≤ (2 : ℚ) ^ ((p : ℤ) - 2) :=
          zpow_le_zpow_right₀ (by norm_num) (by omega)
        rw [show ((2 : ℚ) ^ (-1 : ℤ)) = 1 / 2 from by norm_num] at h1
        exact h1
      have hwlo : (2 : ℚ) ^ ((p : ℤ) - 2) ≤ w := by
        have h1 : (M : ℚ) - 1 / 4 < w := by linarith [habs4.1]
        rw [hMeq, hB] at h1
        linarith
      have hwhi : w < (2 : ℚ) ^ ((p : ℤ) - 2 + 1) := by
        rw [show (p : ℤ) - 2 + 1 = (p : ℤ) - 1 from by ring, ← hMeq]
        exact hwM
      have hw0 : 0 < w := lt_of_lt_of_le (by positivity) hwlo
      have hclose : |w * 2 - ((2 ^ p : ℤ) : ℚ)| < 1 / 2 := by
        have hcast : ((2 ^ p : ℤ) : ℚ) = (2 : ℚ) ^ ((p : ℤ)) := by
          rw [hzp0]
          push_cast
          rfl
        rw [hcast, h2p, ← hMeq]
        have h1 : |w * 2 - 2 * (M : ℚ)| = 2 * |w - (M : ℚ)| := by
          rw [show w * 2 - 2 * (M : ℚ) = 2 * (w - (M : ℚ)) from by ring,
            abs_mul]
          norm_num
        rw [h1]
        linarith
      have h := round_eq_of p .N w ((p : ℤ) - 2) (2 ^ p) (ne_of_gt hw0)
        (by rw [h20, abs_of_pos hw0]; exact hwlo)
        (by rw [h20, abs_of_pos hw0]; exact hwhi)
        (by
          rw [show (p : ℤ) - 1 - ((p : ℤ) - 2) = 1 from by ring, zpow_one]
          exact inearest_of_close hclose)
      rw [h]
      have hcast : ((2 ^ p : ℤ) : ℚ) = (2 : ℚ) ^ ((p : ℤ)) := by
        rw [hzp0]
        push_cast
        rfl
      rw [hcast, show (p : ℤ) - 2 + 1 - (p : ℤ) = -1 from by ring,
        ← zpow_add₀ (by norm_num : (2 : ℚ) ≠ 0), hMeq]
      congr 1

/-- A value within relative error `1/(2(2^p+1))` of a nonzero `p`-bit
representable value rounds back to it at nearest. -/
theorem roundN_recover (p : ℕ) (hp : 1 ≤ p) (q w : ℚ) (hq : q ≠ 0)
    (hrep : isRep p q)
    (herr : |w - q| ≤ |q| / (2 * (2 ^ p + 1))) :
    round p .N w = q := by
  suffices hpos : ∀ q2 w2 : ℚ, 0 < q2 → isRep p q2 →
      |w2 - q2| ≤ q2 / (2 * (2 ^ p + 1)) → round p .N w2 = q2 by
    rcases lt_or_gt_of_ne hq with hneg | hqpos
    · have h1 : round p .N (-w) = -q := by
        apply hpos (-q) (-w) (by linarith) (isRep_neg p hrep)
        rw [show -w - -q = -(w - q) from by ring, abs_neg]
        rw [abs_of_neg hneg] at herr
        exact herr
      have h2 : round p .N (-w) = -round p .N w :=
        round_neg p (r := .N) trivial w
      rw [h1] at h2
      linarith
    · apply hpos q w hqpos hrep
      rw [abs_of_pos hqpos] at herr
      exact herr
  intro q2 w2 hq2 hrep2 herr2
  obtain ⟨M, E, hM1, hM2, hqME⟩ :=
    isRep_canon p hp (ne_of_gt hq2) hrep2
  have hzE : (0 : ℚ) < (2 : ℚ) ^ E := by positivity
  have hMpos : 0 < M := by
    by_contra hM0
    push_neg at hM0
    have hMc : (M : ℚ) ≤ 0 := by exact_mod_cast hM0
    have hq2le : q2 ≤ 0 := by
      rw [hqME]
      exact mul_nonpos_iff.mpr (Or.inr ⟨hMc, le_of_lt hzE⟩)
    linarith
  have hMnat : (M.natAbs : ℤ) = M := Int.natAbs_of_nonneg (le_of_lt hMpos)
  have hM1' : (2 : ℤ) ^ (p - 1) ≤ M := by
    have h1 : ((2 ^ (p - 1) : ℕ) : ℤ) ≤ (M.natAbs : ℤ) := by
      exact_mod_cast hM1
    rw [hMnat] at h1
    calc (2 : ℤ) ^ (p - 1) = ((2 ^ (p - 1) : ℕ) : ℤ) := by push_cast; rfl
      _ ≤ M := h1
  have hM2' : M < 2 ^ p := by
    have h1 : (M.natAbs : ℤ) < ((2 ^ p : ℕ) : ℤ) := by exact_mod_cast hM2
    rw [hMnat] at h1
    calc M < ((2 ^ p : ℕ) : ℤ) := h1
      _ = (2 : ℤ) ^ p := by push_cast; rfl
  set w' : ℚ := w2 * 2 ^ (-E) with hw'
  have hw2 : w2 = w' * 2 ^ E := by
    rw [hw', mul_assoc, ← zpow_add₀ (by norm_num : (2 : ℚ) ≠ 0),
      neg_add_cancel, zpow_zero, mul_one]
  have herr' : |w' - (M : ℚ)| ≤ (M : ℚ) / (2 * (2 ^ p + 1)) := by
    have h1 : w2 - q2 = (w' - M) * 2 ^ E := by
      rw [hw2, hqME]
      ring
    have h2 : |w2 - q2| = |w' - M| * 2 ^ E := by
      rw [h1, abs_mul, abs_of_pos hzE]
    have h3 : q2 / (2 * (2 ^ p + 1)) =
        (M : ℚ) / (2 * (2 ^ p + 1)) * 2 ^ E := by
      rw [hqME]
      ring
    rw [h2, h3] at herr2
    exact le_of_mul_le_mul_right herr2 hzE
  have hk := roundN_near_int p hp M w' hM1' hM2' herr'
  rw [hw2, round_scale, hk]
  exact hqME.symm

/-! ### The C4 round-trip: parse-side lemmas and digit-sufficiency -/

theorem digitVal_dot (b : ℕ) : digitVal b '.' = none := rfl

theorem digitVal_at (b : ℕ) : digitVal b '@' = none := rfl

theorem digitVal_minus (b : ℕ) : digitVal b '-' = none := rfl

theorem digitVal_e_le10 (b : ℕ) (hb : b ≤ 10) : digitVal b 'e' = none := by
  have h1 : digitVal b 'e' =
      if (if b ≤ 36 then 14 else 40) < b then
        some (if b ≤ 36 then 14 else 40)
      else none := rfl
  rw [h1, if_pos (show b ≤ 36 by omega), if_neg (show ¬14 < b by omega)]

theorem digitChar_ne_plus : ∀ b < 63, ∀ d < 62, digitChar b d ≠ '+' := by
  decide

theorem digitVal_digitChar : ∀ b < 63, ∀ d < b,
    digitVal b (digitChar b d) = some d := by
  decide

theorem scanDigits_none (b : ℕ) (cs : List Char)
    (h : ∀ c, cs.head? = some c → digitVal b c = none) :
    scanDigits b cs = ([], cs) := by
  cases cs with
  | nil => rfl
  | cons c t =>
      have hc := h c rfl
      simp [scanDigits, hc]

theorem scanDigits_encode (b : ℕ) (hb : b < 63) (ds : List ℕ)
    (hds : ∀ d ∈ ds, d < b) (sfx : List Char)
    (hsfx : ∀ c, sfx.head? = some c → digitVal b c = none) :
    scanDigits b (ds.map (digitChar b) ++ sfx) = (ds, sfx) := by
  induction ds with
  | nil => simpa using scanDigits_none b sfx hsfx
  | cons d t ih =>
      have hd : digitVal b (digitChar b d) = some d :=
        digitVal_digitChar b hb d (hds d (List.mem_cons_self d t))
      have ht := ih (fun x hx => hds x (List.mem_cons_of_mem d hx))
      simp [scanDigits, hd, ht]

theorem scanDigits_encode_nil (b : ℕ) (hb : b < 63) (ds : List ℕ)
    (hds : ∀ d ∈ ds, d < b) :
    scanDigits b (ds.map (digitChar b)) = (ds, []) := by
  have h := scanDigits_encode b hb ds hds []
    (by intro c hc; simp at hc)
  simpa using h

theorem digitsToNat_reverse (b : ℕ) (L : List ℕ) :
    digitsToNat b L.reverse = Nat.ofDigits b L := by
  induction L with
  | nil => rfl
  | cons d t ih =>
      rw [List.reverse_cons, digitsToNat, List.foldl_append,
        Nat.ofDigits_cons, ← ih]
      simp [digitsToNat]
      ring

theorem digitsToNat_digits (b m : ℕ) :
    digitsToNat b (Nat.digits b m).reverse = m := by
  rw [digitsToNat_reverse, Nat.ofDigits_digits]

theorem toList_append (s t : String) :
    (s ++ t).toList = s.toList ++ t.toList := rfl

theorem length_mk (l : List Char) : (String.mk l).length = l.length := rfl

theorem natDecString_toList (m : ℕ) (hm : m ≠ 0) :
    (natDecString m).toList =
      (Nat.digits 10 m).reverse.map (digitChar 10) := by
  rw [natDecString, if_neg hm, toList_mk]

theorem scanExp_core (b : ℕ) (c : Char)
    (hc : c = '@' ∨ (b ≤ 10 ∧ (c = 'e' ∨ c = 'E'))) (t : ℤ) (ht : t ≠ 0) :
    scanExp b (c :: (intDecString t).toList) = some (t, []) := by
  have hm0 : t.natAbs ≠ 0 := by omega
  have hdl : (natDecString t.natAbs).toList =
      (Nat.digits 10 t.natAbs).reverse.map (digitChar 10) :=
    natDecString_toList _ hm0
  have hdig : ∀ d ∈ (Nat.digits 10 t.natAbs).reverse, d < 10 :=
    fun d hd => Nat.digits_lt_base (by norm_num) (List.mem_reverse.mp hd)
  have hscan : scanDigits 10
      ((Nat.digits 10 t.natAbs).reverse.map (digitChar 10)) =
      ((Nat.digits 10 t.natAbs).reverse, []) :=
    scanDigits_encode_nil 10 (by norm_num) _ hdig
  have hne : (Nat.digits 10 t.natAbs).reverse ≠ [] := by
    simp [Nat.digits_ne_nil_iff_ne_zero.mpr hm0]
  have hval : (digitsToNat 10 (Nat.digits 10 t.natAbs).reverse : ℤ) =
      (t.natAbs : ℤ) := by
    rw [digitsToNat_digits]
  have hscan2 : scanDigits 10
      ((List.map (digitChar 10) (Nat.digits 10 t.natAbs)).reverse) =
      ((Nat.digits 10 t.natAbs).reverse, []) := by
    rw [show (List.map (digitChar 10) (Nat.digits 10 t.natAbs)).reverse =
      (Nat.digits 10 t.natAbs).reverse.map (digitChar 10) from by simp]
    exact hscan
  rcases lt_or_gt_of_ne ht with hneg | hpos
  · have hint : intDecString t = "-" ++ natDecString t.natAbs := by
      rw [intDecString, if_pos hneg]
    have htl : (intDecString t).toList =
        '-' :: (Nat.digits 10 t.natAbs).reverse.map (digitChar 10) := by
      rw [hint, toList_append, hdl]
      rfl
    rw [htl]
    simp only [scanExp]
    rw [if_pos hc]
    simp only [List.head?, List.tail, if_true]
    simp [hscan2, hne, hval, abs_of_neg hneg]
  · have hint : intDecString t = "" ++ natDecString t.natAbs := by
      rw [intDecString, if_neg (by omega : ¬t < 0)]
    have htl : (intDecString t).toList =
        (Nat.digits 10 t.natAbs).reverse.map (digitChar 10) := by
      rw [hint, toList_append, hdl]
      rfl
    obtain ⟨d0, Ltl, hL⟩ :=
      List.exists_cons_of_ne_nil hne
    have hd0lt : d0 < 10 := hdig d0 (by rw [hL]; exact List.mem_cons_self _ _)
    have hc0m : digitChar 10 d0 ≠ '-' :=
      digitChar_ne_minus 10 (by norm_num) d0 (by omega)
    have hc0p : digitChar 10 d0 ≠ '+' :=
      digitChar_ne_plus 10 (by norm_num) d0 (by omega)
    rw [htl, hL]
    simp only [scanExp]
    rw [if_pos hc]
    simp only [List.map_cons, List.head?, List.tail]
    rw [if_neg (show ¬(some (digitChar 10 d0) = some '-') from by
      simpa using hc0m)]
    rw [if_neg (show ¬(some (digitChar 10 d0) = some '+') from by
      simpa using hc0p)]
    rw [show (digitChar 10 d0 :: Ltl.map (digitChar 10)) =
      (d0 :: Ltl).map (digitChar 10) from rfl, ← hL, hscan]
    simp [hne, hval]
    omega

theorem scanFr_render (b : ℕ) (hb2 : 2 ≤ b) (hb62 : b ≤ 62)
    (ng : Bool) (v0 : ℕ) (Lrest : List ℕ)
    (hv0 : v0 < b) (hLr : ∀ d ∈ Lrest, d < b) (F : ℤ) :
    scanFr b
      ((if ng then ['-'] else []) ++
        digitChar b v0 :: '.' :: Lrest.map (digitChar b) ++
        (if F - 1 ≠ 0 then
          (if 10 < b then '@' else 'e') :: (intDecString (F - 1)).toList
        else [])) =
      ⟨((if ng then ['-'] else []) ++
          digitChar b v0 :: '.' :: Lrest.map (digitChar b) ++
          (if F - 1 ≠ 0 then
            (if 10 < b then '@' else 'e') :: (intDecString (F - 1)).toList
          else [])).length,
        true, ng,
        (digitsToNat b (v0 :: Lrest) : ℚ) *
          (b : ℚ) ^ (F - 1 - (Lrest.length : ℤ))⟩ := by
  have hb63 : b < 63 := by omega
  have hbQ0 : (b : ℚ) ≠ 0 := by
    have : 0 < b := by omega
    exact_mod_cast Nat.pos_iff_ne_zero.mp this
  set ex : List Char :=
    (if F - 1 ≠ 0 then
      (if 10 < b then '@' else 'e') :: (intDecString (F - 1)).toList
    else []) with hex
  have hexhead : ∀ c, ex.head? = some c → digitVal b c = none := by
    intro c hc
    rw [hex] at hc
    by_cases hF : F - 1 ≠ 0
    · rw [if_pos hF] at hc
      simp only [List.head?] at hc
      injection hc with hc
      by_cases h10 : 10 < b
      · rw [if_pos h10] at hc
        rw [← hc]
        exact digitVal_at b
      · rw [if_neg h10] at hc
        rw [← hc]
        exact digitVal_e_le10 b (by omega)
    · rw [if_neg hF] at hc
      simp at hc
  have hp1 : scanDigits b
      (digitChar b v0 :: '.' :: (Lrest.map (digitChar b) ++ ex)) =
      ([v0], '.' :: (Lrest.map (digitChar b) ++ ex)) := by
    have h := scanDigits_encode b hb63 [v0]
      (by intro d hd; simp at hd; omega)
      ('.' :: (Lrest.map (digitChar b) ++ ex))
      (by
        intro c hc
        simp only [List.head?] at hc
        injection hc with hc
        rw [← hc]
        exact digitVal_dot b)
    simpa using h
  have hpd : scanDigits b (Lrest.map (digitChar b) ++ ex) =
      (Lrest, ex) :=
    scanDigits_encode b hb63 Lrest hLr ex hexhead
  have hc0m : digitChar b v0 ≠ '-' :=
    digitChar_ne_minus b hb63 v0 (by omega)
  have hc0p : digitChar b v0 ≠ '+' :=
    digitChar_ne_plus b hb63 v0 (by omega)
  by_cases hF : F - 1 ≠ 0
  · have hE : scanExp b ex = some (F - 1, []) := by
      rw [hex, if_pos hF]
      apply scanExp_core
      · by_cases h10 : 10 < b
        · rw [if_pos h10]
          exact Or.inl rfl
        · rw [if_neg h10]
          exact Or.inr ⟨by omega, Or.inl rfl⟩
      · exact hF
    have harith : (digitsToNat b (v0 :: Lrest) : ℚ) *
        ((b : ℚ) ^ Lrest.length)⁻¹ * (b : ℚ) ^ (F - 1) =
        (digitsToNat b (v0 :: Lrest) : ℚ) *
          (b : ℚ) ^ (F - 1 - (Lrest.length : ℤ)) := by
      rw [mul_assoc]
      congr 1
      rw [← zpow_natCast (b : ℚ) Lrest.length, ← zpow_neg,
        ← zpow_add₀ hbQ0]
      congr 1
      ring
    cases ng with
    | true =>
        simp [scanFr, hp1, hpd, hE, hc0m, hc0p]
        exact harith
    | false =>
        simp [scanFr, hp1, hpd, hE, hc0m, hc0p]
        exact harith
  · have hex0 : ex = [] := by rw [hex, if_neg hF]
    rw [hex0] at hp1 hpd
    simp only [List.append_nil] at hp1 hpd
    have hE : scanExp b ([] : List Char) = none := rfl
    have hzp : ((b : ℚ) ^ Lrest.length)⁻¹ =
        (b : ℚ) ^ (F - 1 - (Lrest.length : ℤ)) := by
      rw [← zpow_natCast (b : ℚ) Lrest.length, ← zpow_neg]
      congr 1
      omega
    cases ng with
    | true =>
        simp [scanFr, hex0, hp1, hpd, hE, hc0m, hc0p]
        exact Or.inl hzp
    | false =>
        simp [scanFr, hex0, hp1, hpd, hE, hc0m, hc0p]
        exact Or.inl hzp

theorem getStrDigits_val_eq (b n : ℕ) (hb : 2 ≤ b) (hn : 1 ≤ n)
    (r : Rnd) (q : ℚ) (D F : ℤ)
    (hDF : getStrDigits b n r q = (D, F)) :
    (D : ℚ) * (b : ℚ) ^ (F - (n : ℤ)) =
      (iround r (q * (b : ℚ) ^ ((n : ℤ) - (Int.log b |q| + 1))) : ℚ) *
        (b : ℚ) ^ (Int.log b |q| + 1 - (n : ℤ)) := by
  have hbQ : (0 : ℚ) < (b : ℚ) := by exact_mod_cast (by omega : 0 < b)
  have hbne : (b : ℚ) ≠ 0 := ne_of_gt hbQ
  set F0 : ℤ := Int.log b |q| + 1 with hF0
  set m : ℚ := q * (b : ℚ) ^ ((n : ℤ) - F0) with hm
  set D0 : ℤ := iround r m with hD0
  simp only [getStrDigits] at hDF
  rw [← hF0, ← hm, ← hD0] at hDF
  split at hDF
  case isTrue hcarry =>
    injection hDF with hD hF
    have hpow : (0 : ℤ) < (b : ℤ) ^ n := by positivity
    have hcastn1 : (((b : ℤ) ^ (n - 1) : ℤ) : ℚ) = (b : ℚ) ^ ((n : ℤ) - 1) := by
      push_cast
      rw [← zpow_natCast (b : ℚ) (n - 1)]
      congr 1
      omega
    have hcastn : (((b : ℤ) ^ n : ℤ) : ℚ) = (b : ℚ) ^ (n : ℤ) := by
      push_cast
      rw [← zpow_natCast (b : ℚ) n]
    have hz1 : (b : ℚ) ^ ((n : ℤ) - 1) * (b : ℚ) ^ (F0 + 1 - (n : ℤ)) =
        (b : ℚ) ^ F0 := by
      rw [← zpow_add₀ hbne]
      congr 1
      ring
    have hz2 : (b : ℚ) ^ (n : ℤ) * (b : ℚ) ^ (F0 - (n : ℤ)) =
        (b : ℚ) ^ F0 := by
      rw [← zpow_add₀ hbne]
      congr 1
      ring
    by_cases hng : D0 < 0
    · rw [if_pos hng] at hD
      have hD0v : D0 = -((b : ℤ) ^ n) := by
        rcases Int.natAbs_eq D0 with h | h
        · rw [hcarry] at h
          push_cast at h
          rw [h] at hng
          exact absurd hng (not_lt.mpr (le_of_lt hpow))
        · rw [hcarry] at h
          push_cast at h
          exact h
      rw [← hD, ← hF, hD0v]
      push_cast
      rw [show ((b : ℚ) ^ (n - 1) : ℚ) = (b : ℚ) ^ ((n : ℤ) - 1) from by
        rw [← zpow_natCast (b : ℚ) (n - 1)]; congr 1; omega]
      rw [show ((b : ℚ) ^ n : ℚ) = (b : ℚ) ^ (n : ℤ) from by
        rw [← zpow_natCast (b : ℚ) n]]
      rw [neg_mul, neg_mul, hz1, hz2]
    · rw [if_neg hng] at hD
      have hD0v : D0 = (b : ℤ) ^ n := by
        rcases Int.natAbs_eq D0 with h | h
        · rw [hcarry] at h
          push_cast at h
          exact h
        · rw [hcarry] at h
          push_cast at h
          omega
      rw [← hD, ← hF, hD0v]
      push_cast
      rw [show ((b : ℚ) ^ (n - 1) : ℚ) = (b : ℚ) ^ ((n : ℤ) - 1) from by
        rw [← zpow_natCast (b : ℚ) (n - 1)]; congr 1; omega]
      rw [show ((b : ℚ) ^ n : ℚ) = (b : ℚ) ^ (n : ℤ) from by
        rw [← zpow_natCast (b : ℚ) n]]
      rw [hz1, hz2]
  case isFalse =>
    injection hDF with hD hF
    rw [← hD, ← hF]

theorem getStrDigits_valN (b n : ℕ) (hb : 2 ≤ b) (hn : 1 ≤ n)
    (q : ℚ) (_hq : q ≠ 0) (D F : ℤ)
    (hDF : getStrDigits b n .N q = (D, F)) :
    |(D : ℚ) * (b : ℚ) ^ (F - (n : ℤ)) - q| ≤
      (1 / 2) * (b : ℚ) ^ (Int.log b |q| + 1 - (n : ℤ)) := by
  have hbQ : (0 : ℚ) < (b : ℚ) := by exact_mod_cast (by omega : 0 < b)
  have hbne : (b : ℚ) ≠ 0 := ne_of_gt hbQ
  rw [getStrDigits_val_eq b n hb hn .N q D F hDF]
  set F0 : ℤ := Int.log b |q| + 1 with hF0
  set m : ℚ := q * (b : ℚ) ^ ((n : ℤ) - F0) with hm
  have hir : iround .N m = inearest m := rfl
  have hmq : m * (b : ℚ) ^ (F0 - (n : ℤ)) = q := by
    rw [hm, mul_assoc, ← zpow_add₀ hbne]
    rw [show (n : ℤ) - F0 + (F0 - (n : ℤ)) = 0 from by ring, zpow_zero,
      mul_one]
  have hsc : (0 : ℚ) < (b : ℚ) ^ (F0 - (n : ℤ)) := zpow_pos hbQ _
  have hkey : (iround .N m : ℚ) * (b : ℚ) ^ (F0 - (n : ℤ)) - q =
      ((inearest m : ℚ) - m) * (b : ℚ) ^ (F0 - (n : ℤ)) := by
    rw [hir, sub_mul, hmq]
  rw [hkey, abs_mul, abs_of_pos hsc]
  exact mul_le_mul_of_nonneg_right (inearest_err m) (le_of_lt hsc)

theorem getStrDigits_range (b n : ℕ) (hb : 2 ≤ b) (hn : 1 ≤ n)
    (r : Rnd) (q : ℚ) (hq : q ≠ 0) (D F : ℤ)
    (hDF : getStrDigits b n r q = (D, F)) :
    b ^ (n - 1) ≤ D.natAbs ∧ D.natAbs < b ^ n := by
  have hb1 : (1 : ℕ) < b := hb
  have hbQ : (0 : ℚ) < (b : ℚ) := by exact_mod_cast (by omega : 0 < b)
  have hbne : (b : ℚ) ≠ 0 := ne_of_gt hbQ
  have habs : 0 < |q| := abs_pos.mpr hq
  set F0 : ℤ := Int.log b |q| + 1 with hF0
  set m : ℚ := q * (b : ℚ) ^ ((n : ℤ) - F0) with hm
  set D0 : ℤ := iround r m with hD0
  have hscale : (0 : ℚ) < (b : ℚ) ^ ((n : ℤ) - F0) := zpow_pos hbQ _
  have hmabs : |m| = |q| * (b : ℚ) ^ ((n : ℤ) - F0) := by
    rw [hm, abs_mul, abs_of_pos hscale]
  have hlowq : ((b : ℕ) : ℚ) ^ (F0 - 1) ≤ |q| := by
    have h := Int.zpow_log_le_self (b := b) (r := |q|) hb1 habs
    rw [hF0]
    simpa using h
  have hupq : |q| < ((b : ℕ) : ℚ) ^ F0 := by
    have h := Int.lt_zpow_succ_log_self (b := b) (r := |q|) hb1
    rw [hF0]
    simpa using h
  have hml : ((b ^ (n - 1) : ℕ) : ℚ) ≤ |m| := by
    rw [hmabs]
    have hstep : (b : ℚ) ^ (F0 - 1) * (b : ℚ) ^ ((n : ℤ) - F0) ≤
        |q| * (b : ℚ) ^ ((n : ℤ) - F0) :=
      mul_le_mul_of_nonneg_right (by simpa using hlowq) (le_of_lt hscale)
    have hcomb : (b : ℚ) ^ (F0 - 1) * (b : ℚ) ^ ((n : ℤ) - F0) =
        (b : ℚ) ^ ((n : ℤ) - 1) := by
      rw [← zpow_add₀ hbne]
      congr 1
      ring
    have hcast : ((b ^ (n - 1) : ℕ) : ℚ) = (b : ℚ) ^ ((n : ℤ) - 1) := by
      push_cast
      rw [← zpow_natCast (b : ℚ) (n - 1)]
      congr 1
      omega
    rw [hcast, ← hcomb]
    exact hstep
  have hmu : |m| < ((b ^ n : ℕ) : ℚ) := by
    rw [hmabs]
    have hstep : |q| * (b : ℚ) ^ ((n : ℤ) - F0) <
        (b : ℚ) ^ F0 * (b : ℚ) ^ ((n : ℤ) - F0) :=
      mul_lt_mul_of_pos_right (by simpa using hupq) hscale
    have hcomb : (b : ℚ) ^ F0 * (b : ℚ) ^ ((n : ℤ) - F0) =
        (b : ℚ) ^ (n : ℤ) := by
      rw [← zpow_add₀ hbne]
      congr 1
      ring
    have hcast : ((b ^ n : ℕ) : ℚ) = (b : ℚ) ^ (n : ℤ) := by
      push_cast
      rw [← zpow_natCast (b : ℚ) n]
    rw [hcast, ← hcomb]
    exact hstep
  have hDbound : (((b ^ (n - 1) : ℕ) : ℤ) ≤ D0 ∧
      D0 ≤ ((b ^ n : ℕ) : ℤ)) ∨
      (D0 ≤ -((b ^ (n - 1) : ℕ) : ℤ) ∧ -((b ^ n : ℕ) : ℤ) ≤ D0) := by
    rcases lt_or_gt_of_ne hq with hneg | hpos
    · have hm0 : m < 0 := by
        rw [hm]
        exact mul_neg_of_neg_of_pos hneg hscale
      have hmla : m ≤ -((b ^ (n - 1) : ℕ) : ℚ) := by
        rw [abs_of_neg hm0] at hml
        linarith
      have hmua : -((b ^ n : ℕ) : ℚ) < m := by
        rw [abs_of_neg hm0] at hmu
        linarith
      refine Or.inr ⟨?_, ?_⟩
      · calc D0 ≤ ⌈m⌉ := iround_le_ceil r m
          _ ≤ -((b ^ (n - 1) : ℕ) : ℤ) := Int.ceil_le.mpr (by
            push_cast
            push_cast at hmla
            exact hmla)
      · calc -((b ^ n : ℕ) : ℤ) ≤ ⌊m⌋ := Int.le_floor.mpr (by
            push_cast
            push_cast at hmua
            linarith)
          _ ≤ D0 := floor_le_iround r m
    · have hm0 : 0 < m := by
        rw [hm]
        exact mul_pos hpos hscale
      have hmla : ((b ^ (n - 1) : ℕ) : ℚ) ≤ m := by
        rw [abs_of_pos hm0] at hml
        linarith
      have hmua : m < ((b ^ n : ℕ) : ℚ) := by
        rw [abs_of_pos hm0] at hmu
        linarith
      refine Or.inl ⟨?_, ?_⟩
      · calc ((b ^ (n - 1) : ℕ) : ℤ) ≤ ⌊m⌋ := Int.le_floor.mpr hmla
          _ ≤ D0 := floor_le_iround r m
      · calc D0 ≤ ⌈m⌉ := iround_le_ceil r m
          _ ≤ ((b ^ n : ℕ) : ℤ) := Int.ceil_le.mpr (le_of_lt hmua)
  have hpowlt : b ^ (n - 1) < b ^ n :=
    Nat.pow_lt_pow_right hb1 (by omega)
  simp only [getStrDigits] at hDF
  rw [← hF0, ← hm, ← hD0] at hDF
  split at hDF
  case isTrue hcarry =>
    injection hDF with hD hF
    have hnab : ((b : ℤ) ^ (n - 1)).natAbs = b ^ (n - 1) := by
      rw [Int.natAbs_pow]
      rfl
    by_cases hng : D0 < 0
    · rw [if_pos hng] at hD
      rw [← hD]
      rw [Int.natAbs_neg, hnab]
      omega
    · rw [if_neg hng] at hD
      rw [← hD, hnab]
      omega
  case isFalse hcarry =>
    injection hDF with hD hF
    rw [← hD]
    omega

theorem roundtrip_val (p : ℕ) (hp : 1 ≤ p) (b n1 : ℕ) (hb : 2 ≤ b)
    (hn1 : 1 ≤ n1) (hpow : 2 ^ p ≤ b ^ (n1 - 1))
    (q : ℚ) (hq : q ≠ 0) (hrep : isRep p q) (D F : ℤ)
    (hDF : getStrDigits b n1 .N q = (D, F)) :
    round p .N ((D : ℚ) * (b : ℚ) ^ (F - (n1 : ℤ))) = q := by
  have hb1 : (1 : ℕ) < b := hb
  have hbQ : (0 : ℚ) < (b : ℚ) := by exact_mod_cast (by omega : 0 < b)
  have hbne : (b : ℚ) ≠ 0 := ne_of_gt hbQ
  have habs : 0 < |q| := abs_pos.mpr hq
  have hlowq : ((b : ℕ) : ℚ) ^ (Int.log b |q|) ≤ |q| :=
    Int.zpow_log_le_self hb1 habs
  rcases eq_or_lt_of_le hpow with hcase | hcase
  · -- b^(n1-1) = 2^p : the rendering is exact
    have hn1ne : n1 - 1 ≠ 0 := by
      intro h0
      rw [h0, pow_zero] at hcase
      have h2p : 1 < 2 ^ p := Nat.one_lt_two_pow_iff.mpr (by omega)
      omega
    obtain ⟨j, hjle, hbj⟩ :=
      (Nat.dvd_prime_pow Nat.prime_two).mp
        (show b ∣ 2 ^ p from hcase ▸ dvd_pow_self b hn1ne)
    have hj1 : 1 ≤ j := by
      by_contra h0
      have : j = 0 := by omega
      rw [this, pow_zero] at hbj
      omega
    have hjn : j * (n1 - 1) = p := by
      have h1 : (2 : ℕ) ^ (j * (n1 - 1)) = 2 ^ p := by
        rw [pow_mul, ← hbj]
        exact hcase.symm
      exact Nat.pow_right_injective (le_refl 2) h1
    obtain ⟨M, E, hM1, hM2, hqME⟩ := isRep_canon p hp hq hrep
    have hqabs : |q| = ((M.natAbs : ℕ) : ℚ) * (2 : ℚ) ^ E := by
      rw [hqME, abs_mul, abs_of_pos (zpow_pos (by norm_num : (0:ℚ) < 2) E)]
      congr 1
      rw [← Int.cast_abs]
      congr 1
      exact Int.abs_eq_natAbs M
    have hcastp1 : ((2 ^ (p - 1) : ℕ) : ℚ) = (2 : ℚ) ^ ((p : ℤ) - 1) := by
      push_cast
      rw [← zpow_natCast (2 : ℚ) (p - 1)]
      congr 1
      omega
    have hcastp : ((2 ^ p : ℕ) : ℚ) = (2 : ℚ) ^ (p : ℤ) := by
      push_cast
      rw [← zpow_natCast (2 : ℚ) p]
    have hlog2 : Int.log 2 |q| = E + (p : ℤ) - 1 := by
      apply log2_abs_eq
      · rw [show E + (p : ℤ) - 1 = ((p : ℤ) - 1) + E from by ring,
          zpow_add₀ (by norm_num : ((2:ℕ):ℚ) ≠ 0), hqabs]
        apply mul_le_mul_of_nonneg_right _ (le_of_lt (zpow_pos (by norm_num) E))
        calc ((2 : ℕ) : ℚ) ^ ((p : ℤ) - 1) = ((2 ^ (p - 1) : ℕ) : ℚ) := by
              rw [hcastp1]; norm_num
          _ ≤ ((M.natAbs : ℕ) : ℚ) := by exact_mod_cast hM1
      · rw [show E + (p : ℤ) - 1 + 1 = (p : ℤ) + E from by ring,
          zpow_add₀ (by norm_num : ((2:ℕ):ℚ) ≠ 0), hqabs]
        apply mul_lt_mul_of_pos_right _ (zpow_pos (by norm_num) E)
        calc ((M.natAbs : ℕ) : ℚ) < ((2 ^ p : ℕ) : ℚ) := by exact_mod_cast hM2
          _ = ((2 : ℕ) : ℚ) ^ (p : ℤ) := by rw [hcastp]; norm_num
    set F0 : ℤ := Int.log b |q| + 1 with hF0
    have hbcast : ((b : ℕ) : ℚ) = (2 : ℚ) ^ (j : ℕ) := by
      rw [hbj]
      push_cast
      rfl
    have hklog : (j : ℤ) * (F0 - 1) ≤ E + (p : ℤ) - 1 := by
      have hlow2 : ((2 : ℕ) : ℚ) ^ ((j : ℤ) * (F0 - 1)) ≤ |q| := by
        have h1 : ((b : ℕ) : ℚ) ^ (F0 - 1) ≤ |q| := by
          rw [hF0]
          simpa using hlowq
        rw [show (((2:ℕ)):ℚ) = (2:ℚ) from by norm_num, zpow_mul]
        rw [hbcast, ← zpow_natCast (2 : ℚ) j] at h1
        exact h1
      have := (Int.zpow_le_iff_le_log (by norm_num : 1 < 2) habs).mp hlow2
      omega
    set k : ℤ := E + (j : ℤ) * ((n1 : ℤ) - F0) with hk
    have hjn2 : (j : ℤ) * ((n1 : ℤ) - 1) = (p : ℤ) := by
      rw [show (n1 : ℤ) - 1 = ((n1 - 1 : ℕ) : ℤ) from by omega]
      exact_mod_cast hjn
    have hk1 : 1 ≤ k := by
      have hexp : (j : ℤ) * ((n1 : ℤ) - F0) =
          (j : ℤ) * ((n1 : ℤ) - 1) - (j : ℤ) * (F0 - 1) := by ring
      rw [hk, hexp, hjn2]
      linarith [hklog]
    have hm_int : q * ((b : ℕ) : ℚ) ^ ((n1 : ℤ) - F0) =
        ((M * 2 ^ k.toNat : ℤ) : ℚ) := by
      have hknn : (0 : ℤ) ≤ k := by omega
      have hkk : ((k.toNat : ℕ) : ℤ) = k := Int.toNat_of_nonneg hknn
      have hr : ((M * 2 ^ k.toNat : ℤ) : ℚ) = (M : ℚ) * (2 : ℚ) ^ k := by
        push_cast
        rw [← zpow_natCast (2 : ℚ) k.toNat, hkk]
      rw [hr, hqME, hbcast, ← zpow_natCast (2 : ℚ) j, ← zpow_mul,
        mul_assoc, ← zpow_add₀ (by norm_num : (2 : ℚ) ≠ 0), hk]
    have hval := getStrDigits_val_eq b n1 hb hn1 .N q D F hDF
    rw [← hF0] at hval
    rw [hval]
    have hm2 : q * ((b : ℕ) : ℚ) ^ ((n1 : ℤ) - F0) =
        q * ((b : ℚ)) ^ ((n1 : ℤ) - F0) := by norm_num
    rw [show q * ((b : ℚ)) ^ ((n1 : ℤ) - F0) =
      ((M * 2 ^ k.toNat : ℤ) : ℚ) from by rw [← hm2]; exact hm_int]
    rw [iround_intCast]
    have hback : ((M * 2 ^ k.toNat : ℤ) : ℚ) * (b : ℚ) ^ (F0 - (n1 : ℤ)) =
        q := by
      rw [show ((M * 2 ^ k.toNat : ℤ) : ℚ) =
        q * ((b : ℚ)) ^ ((n1 : ℤ) - F0) from by rw [← hm2]; exact hm_int.symm]
      rw [mul_assoc, ← zpow_add₀ hbne]
      rw [show (n1 : ℤ) - F0 + (F0 - (n1 : ℤ)) = 0 from by ring, zpow_zero,
        mul_one]
    rw [hback]
    exact round_exact p .N hrep
  · -- 2^p < b^(n1-1) : within half-ulp, recover by rounding
    have herr := getStrDigits_valN b n1 hb hn1 q hq D F hDF
    set F0 : ℤ := Int.log b |q| + 1 with hF0
    set X : ℚ := (b : ℚ) ^ (F0 - (n1 : ℤ)) with hX
    have hXpos : 0 < X := zpow_pos hbQ _
    have hPpos : (0 : ℚ) < 2 * (2 ^ p + 1) := by positivity
    have hbig : (2 : ℚ) ^ p + 1 ≤ (b : ℚ) ^ ((n1 : ℤ) - 1) := by
      have h1 : ((2 ^ p + 1 : ℕ) : ℚ) ≤ ((b ^ (n1 - 1) : ℕ) : ℚ) := by
        exact_mod_cast hcase
      push_cast at h1
      calc (2 : ℚ) ^ p + 1 ≤ (b : ℚ) ^ (n1 - 1 : ℕ) := h1
        _ = (b : ℚ) ^ ((n1 : ℤ) - 1) := by
            rw [← zpow_natCast (b : ℚ) (n1 - 1)]
            congr 1
            omega
    have hqlow : (b : ℚ) ^ ((n1 : ℤ) - 1) * X ≤ |q| := by
      rw [hX, ← zpow_add₀ hbne]
      calc (b : ℚ) ^ ((n1 : ℤ) - 1 + (F0 - (n1 : ℤ))) =
          (b : ℚ) ^ (F0 - 1) := by congr 1; ring
        _ ≤ |q| := by rw [hF0]; simpa using hlowq
    have hstep1 : (1 / 2) * X ≤
        ((b : ℚ) ^ ((n1 : ℤ) - 1) * X) / (2 * (2 ^ p + 1)) := by
      rw [le_div_iff₀ hPpos]
      have hmul : X * ((2 : ℚ) ^ p + 1) ≤ X * (b : ℚ) ^ ((n1 : ℤ) - 1) :=
        mul_le_mul_of_nonneg_left hbig (le_of_lt hXpos)
      nlinarith [hmul, hXpos]
    have hstep2 : ((b : ℚ) ^ ((n1 : ℤ) - 1) * X) / (2 * (2 ^ p + 1)) ≤
        |q| / (2 * (2 ^ p + 1)) :=
      (div_le_div_iff_of_pos_right hPpos).mpr hqlow
    exact roundN_recover p hp q _ hq hrep
      (le_trans herr (le_trans hstep1 hstep2))

/-- C4: textual round-trip at the automatic digit count.  For every
nonzero representable regular value, every base in [2, 62], rendering
with `tostring(v, b, 0, RNDN)` (digit count 0 selects
`1 + ceil(p*log 2/log b)` digits) and re-parsing the resulting string
with `set(z, s, b, RNDN)` reproduces the value exactly: the destination
receives `v` itself and no error is raised. -/
theorem c4_roundtrip (drnd drnd2 : Rnd) (p : ℕ) (hp : 1 ≤ p) (q : ℚ)
    (hq : q ≠ 0) (hrep : isRep p q) (b : ℤ) (hb : 2 ≤ b ∧ b ≤ 62)
    (z0 : Cell) (hz : z0.prec = p) :
    ∃ s : String,
      fr_tostring drnd ⟨p, .reg q⟩ (some (.VInt b)) (some (.VInt 0))
          (some (.VInt 0)) = .ok s ∧
      fr_set drnd2 z0 (.VStr s) (some (.VInt b)) (some (.VInt 0)) =
        (⟨p, .reg q⟩, none) := by
  set bn : ℕ := b.toNat with hbn
  have hbn2 : 2 ≤ bn := by omega
  have hbn62 : bn ≤ 62 := by omega
  set n1 : ℕ := 1 + Nat.clog bn (2 ^ p) with hn1
  have hn1ge : 1 ≤ n1 := by omega
  have hpow : 2 ^ p ≤ bn ^ (n1 - 1) := by
    have h := Nat.le_pow_clog (show 1 < bn by omega) (2 ^ p)
    have he : n1 - 1 = Nat.clog bn (2 ^ p) := by omega
    rw [he]
    exact h
  obtain ⟨D, F, hDF⟩ : ∃ D F, getStrDigits bn n1 .N q = (D, F) :=
    ⟨_, _, rfl⟩
  obtain ⟨hD0, hsign⟩ := getStrDigits_spec bn n1 .N q D F hbn2 hn1ge hq hDF
  obtain ⟨hrange1, hrange2⟩ :=
    getStrDigits_range bn n1 hbn2 hn1ge .N q hq D F hDF
  set A : ℕ := D.natAbs with hA
  have hA0 : A ≠ 0 := by omega
  have hlen : (Nat.digits bn A).length = n1 := by
    have hrange2b : A < bn ^ (n1 - 1 + 1) := by
      rw [show n1 - 1 + 1 = n1 from by omega]
      exact hrange2
    rw [Nat.digits_len bn A (by omega) hA0,
      Nat.log_eq_of_pow_le_of_lt_pow hrange1 hrange2b]
    omega
  set L : List ℕ := (Nat.digits bn A).reverse with hL
  have hLlen : L.length = n1 := by rw [hL, List.length_reverse]; exact hlen
  have hLne : L ≠ [] := by
    intro h0
    rw [h0] at hLlen
    simp at hLlen
    omega
  obtain ⟨v0, Lrest, hLc⟩ := List.exists_cons_of_ne_nil hLne
  have hLb : ∀ d ∈ L, d < bn := fun d hd =>
    Nat.digits_lt_base (by omega) (List.mem_reverse.mp (hL ▸ hd))
  have hv0 : v0 < bn := hLb v0 (by rw [hLc]; exact List.mem_cons_self _ _)
  have hLrb : ∀ d ∈ Lrest, d < bn := fun d hd =>
    hLb d (by rw [hLc]; exact List.mem_cons_of_mem _ hd)
  have hLrlen : Lrest.length = n1 - 1 := by
    have := hLlen
    rw [hLc] at this
    simp at this
    omega
  have hAval : digitsToNat bn (v0 :: Lrest) = A := by
    rw [← hLc, hL]
    exact digitsToNat_digits bn A
  have hround : round p .N ((D : ℚ) * (bn : ℚ) ^ (F - (n1 : ℤ))) = q :=
    roundtrip_val p hp bn n1 hbn2 hn1ge hpow q hq hrep D F hDF
  have hmark : (if (10 : ℤ) < b then '@' else 'e') =
      (if 10 < bn then '@' else 'e') := by
    by_cases h : (10 : ℤ) < b
    · rw [if_pos h, if_pos (by omega)]
    · rw [if_neg h, if_neg (by omega)]
  set ex : List Char :=
    (if F - 1 ≠ 0 then
      (if 10 < bn then '@' else 'e') :: (intDecString (F - 1)).toList
    else []) with hex
  have hgs : mpfr_get_str bn 0 .N p q =
      (if D < 0 then String.mk ('-' :: L.map (digitChar bn))
       else String.mk (L.map (digitChar bn)), F) := by
    have h0 : mpfr_get_str bn 0 .N p q =
        (if (getStrDigits bn n1 .N q).1 < 0 then
          String.mk ('-' ::
            (Nat.digits bn
              (getStrDigits bn n1 .N q).1.natAbs).reverse.map (digitChar bn))
        else
          String.mk
            ((Nat.digits bn
              (getStrDigits bn n1 .N q).1.natAbs).reverse.map (digitChar bn)),
        (getStrDigits bn n1 .N q).2) := rfl
    rw [h0, hDF]
  -- the scan of the rendered mantissa-and-exponent
  have hmagval : (digitsToNat bn (v0 :: Lrest) : ℚ) *
      (bn : ℚ) ^ (F - 1 - (Lrest.length : ℤ)) =
      (A : ℚ) * (bn : ℚ) ^ (F - (n1 : ℤ)) := by
    rw [hAval]
    congr 1
    congr 1
    omega
  have hmagpos : (0 : ℚ) < (A : ℚ) * (bn : ℚ) ^ (F - (n1 : ℤ)) := by
    have hA1 : 0 < A := by omega
    have hbQ : (0 : ℚ) < (bn : ℚ) := by exact_mod_cast (by omega : 0 < bn)
    exact mul_pos (by exact_mod_cast hA1) (zpow_pos hbQ _)
  by_cases hqneg : q < 0
  · -- negative value
    have hDneg : D < 0 := hsign.mpr hqneg
    have hDcast : (D : ℚ) = -(A : ℚ) := by
      have : D = -(A : ℤ) := by omega
      rw [this]
      push_cast
      ring
    rw [if_pos hDneg] at hgs
    refine ⟨String.mk ('-' :: digitChar bn v0 :: '.' ::
      (Lrest.map (digitChar bn) ++ ex)), ?_, ?_⟩
    · -- rendering
      rw [hLc] at hgs
      simp [fr_tostring, opt_base, opt_rnd, optInteger, luaIsnumber,
        luaTointegerx, rndOfInt, bind, Except.bind, pure, Except.pure,
        numberP, zeroP, hb.1, hb.2, hq, hgs, toList_mk, hqneg, hex, hmark,
        ← hbn]
    · -- re-parsing
      have hscan := scanFr_render bn hbn2 hbn62 true v0 Lrest hv0 hLrb F
      rw [← hex] at hscan
      simp only [if_true, List.singleton_append, List.cons_append,
        List.nil_append] at hscan
      have hmagne : (A : ℚ) * (bn : ℚ) ^ (F - (n1 : ℤ)) ≠ 0 :=
        Ne.symm (ne_of_lt hmagpos)
      have hround2 : round p .N
          (-((A : ℚ) * (bn : ℚ) ^ (F - (n1 : ℤ)))) = q := by
        rw [← hround]
        congr 1
        rw [hDcast]
        ring
      simp [fr_set, luaIsstring, opt_rnd, opt_base, optInteger,
        luaIsnumber, luaTointegerx, rndOfInt, bind, Except.bind, pure,
        Except.pure, luaTostring, mpfrSetStr, toList_mk, hscan, hb.1, hb.2,
        hmagval, hmagne, hround2, ← hbn, hz]
  · -- positive value
    have hDpos : ¬D < 0 := fun h => hqneg (hsign.mp h)
    have hDcast : (D : ℚ) = (A : ℚ) := by
      have h2 : D = (A : ℤ) := by omega
      rw [h2]
      norm_cast
    rw [if_neg hDpos] at hgs
    have hd0m : digitChar bn v0 ≠ '-' :=
      digitChar_ne_minus bn (by omega) v0 (by omega)
    refine ⟨String.mk (digitChar bn v0 :: '.' ::
      (Lrest.map (digitChar bn) ++ ex)), ?_, ?_⟩
    · rw [hLc] at hgs
      simp [fr_tostring, opt_base, opt_rnd, optInteger, luaIsnumber,
        luaTointegerx, rndOfInt, bind, Except.bind, pure, Except.pure,
        numberP, zeroP, hb.1, hb.2, hq, hgs, toList_mk, hqneg, hex, hmark,
        hd0m, ← hbn]
    · have hscan := scanFr_render bn hbn2 hbn62 false v0 Lrest hv0 hLrb F
      rw [← hex] at hscan
      rw [show (if (false : Bool) then ['-'] else ([] : List Char)) = []
        from rfl] at hscan
      simp only [List.nil_append, List.cons_append] at hscan
      have hmagne : (A : ℚ) * (bn : ℚ) ^ (F - (n1 : ℤ)) ≠ 0 :=
        Ne.symm (ne_of_lt hmagpos)
      have hround3 : round p .N
          ((A : ℚ) * (bn : ℚ) ^ (F - (n1 : ℤ))) = q := by
        rw [← hround]
        congr 1
        rw [hDcast]
      simp [fr_set, luaIsstring, opt_rnd, opt_base, optInteger,
        luaIsnumber, luaTointegerx, rndOfInt, bind, Except.bind, pure,
        Except.pure, luaTostring, mpfrSetStr, toList_mk, hscan, hb.1, hb.2,
        hmagval, hmagne, hround3, ← hbn, hz]

/-- C4 witness: `q = 5/2` at precision 4, base 10, automatic digit
count, nearest rounding in both directions. -/
theorem c4_roundtrip_witness :
    ((1 : ℕ) ≤ 4 ∧ (5 : ℚ) / 2 ≠ 0 ∧ isRep 4 ((5 : ℚ) / 2) ∧
      ((2 : ℤ) ≤ 10 ∧ (10 : ℤ) ≤ 62) ∧ (Cell.mk 4 (.zero false)).prec = 4) ∧
    (∃ s : String,
      fr_tostring .N ⟨4, .reg ((5 : ℚ) / 2)⟩ (some (.VInt 10))
          (some (.VInt 0)) (some (.VInt 0)) = .ok s ∧
      fr_set .N ⟨4, .zero false⟩ (.VStr s) (some (.VInt 10))
          (some (.VInt 0)) = (⟨4, .reg ((5 : ℚ) / 2)⟩, none)) :=
  ⟨⟨by norm_num, by norm_num, ⟨5, -1, by norm_num, by norm_num⟩,
    ⟨by norm_num, by norm_num⟩, rfl⟩,
    c4_roundtrip .N .N 4 (by norm_num) ((5 : ℚ) / 2) (by norm_num)
      ⟨5, -1, by norm_num, by norm_num⟩ 10 ⟨by norm_num, by norm_num⟩
      ⟨4, .zero false⟩ rfl⟩

end LuaMpfr
